import Mathlib

/-!
# Graph.h : adjacency-matrix graph with a Dijkstra shortest-path query

A shallow embedding of `src/Graph.h`.

Modelling conventions
* `double` is modelled by the type `Double`: the finite values are rationals, next to them
  there are the two infinities and NaN. The sum of two doubles is the exact sum rounded to
  the nearest value of the binary64 format, ties to even, with overflow to an infinity
  (`Double.round`); comparisons with NaN are false. The two zeros of the format are
  identified: the program compares with zero and adds, and neither tells them apart. The
  constant `std::numeric_limits<double>::max()` is `DBL_MAX = 2^1024 - 2^971`.
* `int` is modelled by `Int` together with the range predicate `IsInt`
  (32 bit two's complement); `size_t` is modelled by `Nat`, and the implicit
  conversion of an `int` to `size_t` that every comparison with `graph.size()` and
  every `operator[]` performs is `toSizeT` (reduction modulo `2^64`).
* `std::vector` is modelled by `List`; `operator[]` outside the bounds of the vector
  and the read of a local variable that was never assigned are undefined behaviour,
  which the model reports as the outcome `Result.undefined`.
* Whether the allocation of the matrix succeeds depends on the machine; the constructors
  take the execution environment `Memory` as an argument, and an allocation that fails is
  the outcome `Result.allocFailure`.
* `while (true)` loops carry a fuel argument; running out of fuel is the distinct
  outcome `Result.outOfFuel`.
* An `n`-vertex graph owns `n * n` doubles, so that every graph that exists in a 64 bit
  address space has fewer than `2^31` vertices (`Graph.Sized`); the loop counters of
  type `int` therefore never overflow and are modelled by `Nat`.
-/

namespace ApcGraph

/-! ## The type `double` -/

/-- The values of the C++ type `double` (IEEE 754 binary64); a finite value is given by
the rational number it stands for. The type has room for rationals that are not values of
the format; the statements that hold for every `Double` hold for the values of the format
in particular, and every sum is a value of the format or an infinity. -/
inductive Double where
  /-- a finite value -/
  | finite (q : Rat) : Double
  /-- positive infinity -/
  | posInf : Double
  /-- negative infinity -/
  | negInf : Double
  /-- not a number -/
  | nan : Double
  deriving DecidableEq, Repr

instance (n : Nat) : OfNat Double n := ⟨Double.finite n⟩

/-- The comparison `a < b` of two doubles; false when an operand is NaN. -/
def Double.lt : Double → Double → Prop
  | .finite a, .finite b => a < b
  | .finite _, .posInf => True
  | .negInf, .finite _ => True
  | .negInf, .posInf => True
  | _, _ => False

/-- The comparison `a <= b` of two doubles; false when an operand is NaN. -/
def Double.le : Double → Double → Prop
  | .finite a, .finite b => a ≤ b
  | .finite _, .posInf => True
  | .negInf, .finite _ => True
  | .negInf, .posInf => True
  | .posInf, .posInf => True
  | .negInf, .negInf => True
  | _, _ => False

instance : LT Double := ⟨Double.lt⟩

instance : LE Double := ⟨Double.le⟩

instance (a b : Double) : Decidable (a < b) := by
  show Decidable (Double.lt a b)
  cases a <;> cases b <;> unfold Double.lt <;> infer_instance

instance (a b : Double) : Decidable (a ≤ b) := by
  show Decidable (Double.le a b)
  cases a <;> cases b <;> unfold Double.le <;> infer_instance

/-- The power `2^e` for an integer exponent. -/
def pow2 (e : Int) : Rat :=
  if 0 ≤ e then ((2 ^ e.toNat : Nat) : Rat) else 1 / ((2 ^ (-e).toNat : Nat) : Rat)

/-- Bisection for the largest exponent `e` in `[lo, hi)` with `2^e ≤ a`. -/
def searchExponent (a : Rat) : Nat → Int → Int → Int
  | 0, lo, _ => lo
  | fuel + 1, lo, hi =>
    if hi - lo ≤ 1 then lo
    else if pow2 ((lo + hi) / 2) ≤ a then searchExponent a fuel ((lo + hi) / 2) hi
    else searchExponent a fuel lo ((lo + hi) / 2)

/-- The binary exponent of the positive rational `a` in the binary64 format: the largest
`e` with `2^e ≤ a`, not below the exponent `-1022` of the subnormal numbers and not above
`1024`. -/
def binaryExponent (a : Rat) : Int := searchExponent a 12 (-1022) 1025

/-- Rounding of a non-negative rational to the nearest natural number, ties to even. -/
def roundHalfEven (x : Rat) : Nat :=
  let f := x.floor.toNat
  let r := x - f
  if r < 1 / 2 then f
  else if 1 / 2 < r then f + 1
  else if f % 2 = 0 then f else f + 1

/-- Rounding of an exact result to binary64 (round to nearest, ties to even): the spacing
of the format at the binary exponent `e` is `2^(e - 52)`, and a result that rounds to
`2^1024` or more overflows to an infinity. -/
def Double.round (q : Rat) : Double :=
  if q = 0 then .finite 0
  else
    let a := |q|
    let e := binaryExponent a
    let ulp := pow2 (e - 52)
    let r := (roundHalfEven (a / ulp) : Rat) * ulp
    if pow2 1024 ≤ r then (if 0 < q then .posInf else .negInf)
    else .finite (if 0 < q then r else -r)

/-- The sum `a + b` of two doubles. -/
def Double.add : Double → Double → Double
  | .nan, _ => .nan
  | _, .nan => .nan
  | .posInf, .negInf => .nan
  | .negInf, .posInf => .nan
  | .posInf, _ => .posInf
  | _, .posInf => .posInf
  | .negInf, _ => .negInf
  | _, .negInf => .negInf
  | .finite a, .finite b => Double.round (a + b)

instance : Add Double := ⟨Double.add⟩

/-- The value of `std::numeric_limits<double>::max()`. -/
def DBL_MAX : Double := .finite (2 ^ 1024 - 2 ^ 971)

/-! ## Machine level types -/

/-- The values of the C++ type `int` (32 bit). -/
def IsInt (x : Int) : Prop := -2 ^ 31 ≤ x ∧ x < 2 ^ 31

instance (x : Int) : Decidable (IsInt x) := by
  unfold IsInt; infer_instance

/-- The conversion of an `int` to `size_t` (64 bit, modular). -/
def toSizeT (x : Int) : Nat := (x % 2 ^ 64).toNat

/-- The outcome of running a member function. -/
inductive Result (α : Type) where
  /-- normal return -/
  | ok (a : α) : Result α
  /-- the statement `throw GraphException()` -/
  | graphException : Result α
  /-- the exception `std::length_error` or `std::bad_alloc` of a `std::vector` constructor -/
  | allocFailure : Result α
  /-- undefined behaviour: out of bounds `operator[]`, read of an unassigned variable -/
  | undefined : Result α
  /-- the fuel of a `while (true)` loop of the model is used up -/
  | outOfFuel : Result α
  deriving DecidableEq, Repr

/-- The read `xs[i]` of a `std::vector`. -/
def vecRead {α : Type} (xs : List α) (i : Nat) : Result α :=
  match xs[i]? with
  | some a => .ok a
  | none => .undefined

/-- The write `xs[i] = a` of a `std::vector`. -/
def vecWrite {α : Type} (xs : List α) (i : Nat) (a : α) : Result (List α) :=
  if i < xs.length then .ok (xs.set i a) else .undefined

/-! ## Data model -/

/-- The aggregate `struct Edge { int v; int u; double weight; }`. -/
structure Edge where
  v : Int
  u : Int
  weight : Double
  deriving DecidableEq, Repr

/-- The class `Graph`: its only data member is the matrix `graph`. -/
structure Graph where
  graph : List (List Double)
  deriving DecidableEq, Repr

/-- The outcome of a mutating member function: the object after the call. -/
inductive Mutation where
  /-- normal return, the object is now `g` -/
  | done (g : Graph) : Mutation
  /-- a `GraphException` left the function, the object is left as `g` -/
  | thrown (g : Graph) : Mutation
  /-- undefined behaviour -/
  | undefined : Mutation
  deriving DecidableEq, Repr

/-- The read `graph[i][j]`. -/
def readCell (m : List (List Double)) (i j : Nat) : Result Double :=
  match m[i]? with
  | some row => vecRead row j
  | none => .undefined

/-- The write `graph[i][j] = w`. -/
def writeCell (m : List (List Double)) (i j : Nat) (w : Double) : Result (List (List Double)) :=
  match m[i]? with
  | some row =>
    match vecWrite row j w with
    | .ok row' => .ok (m.set i row')
    | _ => .undefined
  | none => .undefined

/-- The two assignments `graph[e.u][e.v] = e.weight; graph[e.v][e.u] = e.weight;`. -/
def putEdge (m : List (List Double)) (e : Edge) : Result (List (List Double)) :=
  match writeCell m (toSizeT e.u) (toSizeT e.v) e.weight with
  | .ok m1 => writeCell m1 (toSizeT e.v) (toSizeT e.u) e.weight
  | r => r

/-- The execution environment of the program: `rows` is the largest `n` for which the
allocation of an `n × n` matrix of doubles succeeds. A matrix of one row is allocated on
every machine, and the `rows * rows * 8` bytes of the largest matrix are addressable with
64 bit. -/
structure Memory where
  rows : Nat
  one_le : 1 ≤ rows
  fits : rows * rows * 8 < 2 ^ 64

/-- The expression `std::vector<std::vector<double>>(n, std::vector<double>(n, 0))`: an
`n × n` matrix of zeros, or the exception of the allocation that fails. -/
def allocMatrix (mem : Memory) (n : Nat) : Result (List (List Double)) :=
  if n ≤ mem.rows then .ok (List.replicate n (List.replicate n 0)) else .allocFailure

/-- The constructor `Graph::Graph(size_t n)`. -/
def Graph.Graph_n (mem : Memory) (n : Nat) : Result Graph :=
  match allocMatrix mem n with
  | .ok m => .ok ⟨m⟩
  | _ => .allocFailure

/-- First loop of `Graph::Graph(const std::vector<Edge>&)`: validation of the edges and
the running maximum `maxVert` (a `size_t`); `none` stands for `throw GraphException()`. -/
def scanEdges : List Edge → Nat → Option Nat
  | [], maxVert => some maxVert
  | e :: es, maxVert =>
    if e.u = e.v ∨ e.weight ≤ 0 then none
    else
      let maxVert1 := if toSizeT e.u > maxVert then toSizeT e.u else maxVert
      let maxVert2 := if toSizeT e.v > maxVert1 then toSizeT e.v else maxVert1
      scanEdges es maxVert2

/-- Second loop of `Graph::Graph(const std::vector<Edge>&)`: unchecked insertion. -/
def fillEdges (m : List (List Double)) : List Edge → Result (List (List Double))
  | [] => .ok m
  | e :: es =>
    match putEdge m e with
    | .ok m' => fillEdges m' es
    | r => r

/-- The constructor `Graph::Graph(const std::vector<Edge>& edges)`; `maxVert + 1` is
computed in `size_t`. -/
def Graph.Graph_edges (mem : Memory) (edges : List Edge) : Result Graph :=
  match scanEdges edges 0 with
  | none => .graphException
  | some maxVert =>
    match allocMatrix mem ((maxVert + 1) % 2 ^ 64) with
    | .ok m =>
      match fillEdges m edges with
      | .ok m' => .ok ⟨m'⟩
      | .graphException => .graphException
      | .allocFailure => .allocFailure
      | .undefined => .undefined
      | .outOfFuel => .outOfFuel
    | _ => .allocFailure

/-- The member `void Graph::AddEdge(const Edge& edge)`. -/
def Graph.AddEdge (g : Graph) (edge : Edge) : Mutation :=
  if edge.u = edge.v ∨ edge.weight ≤ 0 then .thrown g
  else
    match putEdge g.graph edge with
    | .ok m => .done ⟨m⟩
    | _ => .undefined

/-- The member `void Graph::AddEdges(const std::vector<Edge>& edges)`. -/
def Graph.AddEdges (g : Graph) : List Edge → Mutation
  | [] => .done g
  | e :: es =>
    if e.u = e.v ∨ e.weight ≤ 0 ∨ toSizeT e.u ≥ g.graph.length
        ∨ toSizeT e.v ≥ g.graph.length then .thrown g
    else
      match putEdge g.graph e with
      | .ok m => Graph.AddEdges ⟨m⟩ es
      | _ => .undefined

/-- The member `double Graph::At(int u, int v) const`; `||` evaluates left to right and
stops at the first operand that holds. -/
def Graph.At (g : Graph) (u v : Int) : Result Double :=
  if toSizeT u ≥ g.graph.length ∨ toSizeT v ≥ g.graph.length then .graphException
  else
    match readCell g.graph (toSizeT u) (toSizeT v) with
    | .ok w => if w = 0 then .graphException else .ok w
    | r => r

/-- The member `double Graph::operator()(int u, int v) const`. -/
def Graph.call (g : Graph) (u v : Int) : Result Double :=
  readCell g.graph (toSizeT u) (toSizeT v)

/-- The member `bool Graph::Connected(int u, int v) const noexcept`. -/
def Graph.Connected (g : Graph) (u v : Int) : Result Bool :=
  if toSizeT u ≥ g.graph.length ∨ toSizeT v ≥ g.graph.length then .ok false
  else
    match readCell g.graph (toSizeT u) (toSizeT v) with
    | .ok w => if w = 0 then .ok false else .ok true
    | .graphException => .graphException
    | .allocFailure => .allocFailure
    | .undefined => .undefined
    | .outOfFuel => .outOfFuel

/-! ## The shortest path query -/

/-- State of the `for` loop of `Graph::getNextVertex` after `i` iterations: the outcome
carries `currentMin` and `minIndex`, the latter `none` as long as it was never assigned. -/
def getNextVertexLoop (distances : List Double) (vertMap : List Bool) :
    Nat → Result (Double × Option Nat)
  | 0 => .ok (DBL_MAX, none)
  | i + 1 =>
    match getNextVertexLoop distances vertMap i with
    | .ok (currentMin, minIndex) =>
      match vecRead distances i with
      | .ok d =>
        if currentMin > d then
          match vecRead vertMap i with
          | .ok b => if !b then .ok (d, some i) else .ok (currentMin, minIndex)
          | _ => .undefined
        else .ok (currentMin, minIndex)
      | _ => .undefined
    | r => r

/-- The member `int Graph::getNextVertex(distances, vertMap) const`; the `return` of a
`minIndex` that was never assigned is undefined behaviour. -/
def getNextVertex (distances : List Double) (vertMap : List Bool) : Result Nat :=
  match getNextVertexLoop distances vertMap distances.length with
  | .ok (_, some minIndex) => .ok minIndex
  | .ok (_, none) => .undefined
  | .graphException => .graphException
  | .allocFailure => .allocFailure
  | .undefined => .undefined
  | .outOfFuel => .outOfFuel

/-- State of the inner `for` loop of `Graph::Path` (the relaxation of the edges of
`currVert`) after `i` iterations: the vectors `vertDistance` and `backTrack`. -/
def relaxLoop (graph : List (List Double)) (vertMap : List Bool) (currVert : Nat)
    (init : List Double × List Int) : Nat → Result (List Double × List Int)
  | 0 => .ok init
  | i + 1 =>
    match relaxLoop graph vertMap currVert init i with
    | .ok (vertDistance, backTrack) =>
      match readCell graph currVert i with
      | .ok w =>
        if w ≠ 0 then
          match vecRead vertMap i with
          | .ok b =>
            if !b ∧ i ≠ currVert then
              match vecRead vertDistance i, vecRead vertDistance currVert with
              | .ok di, .ok dc =>
                if di > dc + w then
                  match vecWrite vertDistance i (dc + w), vecWrite backTrack i (currVert : Int) with
                  | .ok vertDistance', .ok backTrack' => .ok (vertDistance', backTrack')
                  | _, _ => .undefined
                else .ok (vertDistance, backTrack)
              | _, _ => .undefined
            else .ok (vertDistance, backTrack)
          | _ => .undefined
        else .ok (vertDistance, backTrack)
      | _ => .undefined
    | r => r

/-- The local vectors of `Graph::Path`. -/
structure PathState where
  vertMap : List Bool
  vertDistance : List Double
  backTrack : List Int
  deriving DecidableEq, Repr

/-- The first `while (true)` loop of `Graph::Path`; the outcome is the state at `break`. -/
def pathLoop (graph : List (List Double)) (v : Int) : Nat → PathState → Result PathState
  | 0, _ => .outOfFuel
  | fuel + 1, st =>
    match getNextVertex st.vertDistance st.vertMap with
    | .ok currVert =>
      if (currVert : Int) = v then .ok st
      else
        match vecWrite st.vertMap currVert true with
        | .ok vertMap =>
          match relaxLoop graph vertMap currVert (st.vertDistance, st.backTrack)
              graph.length with
          | .ok (vertDistance, backTrack) =>
            pathLoop graph v fuel ⟨vertMap, vertDistance, backTrack⟩
          | .graphException => .graphException
          | .allocFailure => .allocFailure
          | .undefined => .undefined
          | .outOfFuel => .outOfFuel
        | _ => .undefined
    | .graphException => .graphException
    | .allocFailure => .allocFailure
    | .undefined => .undefined
    | .outOfFuel => .outOfFuel

/-- The second `while (true)` loop of `Graph::Path`: the walk back over `backTrack`. -/
def backTrackLoop (backTrack : List Int) (u : Int) : Nat → Int → List Int → Result (List Int)
  | 0, _, _ => .outOfFuel
  | fuel + 1, endPoint, result =>
    if endPoint = u then .ok (result ++ [endPoint])
    else
      match vecRead backTrack (toSizeT endPoint) with
      | .ok next => backTrackLoop backTrack u fuel next (result ++ [endPoint])
      | _ => .undefined

/-- The member `std::optional<std::vector<int>> Graph::Path(int u, int v) const`. Each
pass of the first loop marks one more vertex, each pass of the second loop goes one step
back, so both loops are given `graph.size() + 1` units of fuel. -/
def Graph.Path (g : Graph) (u v : Int) : Result (Option (List Int)) :=
  if toSizeT u ≥ g.graph.length ∨ toSizeT v ≥ g.graph.length then .ok none
  else
    let vertMap := List.replicate g.graph.length false
    let vertDistance := (List.replicate g.graph.length DBL_MAX).set (toSizeT u) 0
    let backTrack := (List.replicate g.graph.length (-1 : Int)).set (toSizeT u) u
    match pathLoop g.graph v (g.graph.length + 1) ⟨vertMap, vertDistance, backTrack⟩ with
    | .ok st =>
      match backTrackLoop st.backTrack u (g.graph.length + 1) v [] with
      | .ok result => .ok (some result.reverse)
      | .graphException => .graphException
      | .allocFailure => .allocFailure
      | .undefined => .undefined
      | .outOfFuel => .outOfFuel
    | .graphException => .graphException
    | .allocFailure => .allocFailure
    | .undefined => .undefined
    | .outOfFuel => .outOfFuel

/-! ## Vocabulary of the specification -/

/-- Representation invariant, part one: the matrix has as many columns as rows. -/
def Graph.Square (g : Graph) : Prop := ∀ row ∈ g.graph, row.length = g.graph.length

instance (g : Graph) : Decidable g.Square := by
  unfold Graph.Square; infer_instance

/-- Representation invariant, part two: the matrix has fewer than `2^31` rows, as every
matrix whose `n * n` doubles fit a 64 bit address space has. -/
def Graph.Sized (g : Graph) : Prop := g.graph.length < 2 ^ 31

instance (g : Graph) : Decidable g.Sized := by
  unfold Graph.Sized; infer_instance

/-- The vertex `a` lies in `[0, vertexCount)`. -/
def Graph.InRange (g : Graph) (a : Int) : Prop := 0 ≤ a ∧ a < (g.graph.length : Int)

instance (g : Graph) (a : Int) : Decidable (g.InRange a) := by
  unfold Graph.InRange; infer_instance

/-- The matrix entry `weights[a][b]` of the specification (`0` where there is no entry). -/
def Graph.weights (g : Graph) (a b : Int) : Double :=
  if 0 ≤ a ∧ 0 ≤ b then (g.graph.getD a.toNat []).getD b.toNat 0 else 0

/-- The values of the two `int` members of an edge. -/
def Edge.IsInt (e : Edge) : Prop := ApcGraph.IsInt e.v ∧ ApcGraph.IsInt e.u

instance (e : Edge) : Decidable e.IsInt := by
  unfold Edge.IsInt; infer_instance

/-- The edges `e'` and `e` join the same unordered pair of vertices. -/
def Edge.SamePair (e' e : Edge) : Prop :=
  (e'.u = e.u ∧ e'.v = e.v) ∨ (e'.u = e.v ∧ e'.v = e.u)

instance (e' e : Edge) : Decidable (e'.SamePair e) := by
  unfold Edge.SamePair; infer_instance

/-- The queries see the edge `{a, b}` with weight `w`, in both directions. -/
def Graph.HasEdge (g : Graph) (a b : Int) (w : Double) : Prop :=
  g.Connected a b = .ok true ∧ g.Connected b a = .ok true ∧
    g.At a b = .ok w ∧ g.At b a = .ok w

instance (g : Graph) (a b : Int) (w : Double) : Decidable (g.HasEdge a b w) := by
  unfold Graph.HasEdge; infer_instance

/-- The matrix entry in row `i` and column `j`, `0` outside the matrix. -/
def cell (m : List (List Double)) (i j : Nat) : Double := (m.getD i []).getD j 0

/-- A well-formed graph: a square matrix of fewer than `2^31` rows that is symmetric, has a
zero diagonal and in which every entry is `>= 0` (a comparison that is false for NaN), so
that every edge weight is strictly positive. -/
def Graph.WellFormed (g : Graph) : Prop :=
  g.Square ∧ g.Sized ∧
  (∀ i < g.graph.length, ∀ j < g.graph.length, cell g.graph i j = cell g.graph j i) ∧
  (∀ i < g.graph.length, cell g.graph i i = 0) ∧
  (∀ row ∈ g.graph, ∀ w ∈ row, 0 ≤ w)

instance (g : Graph) : Decidable g.WellFormed := by
  unfold Graph.WellFormed; infer_instance

/-- The vertices `a` and `b` are joined by an edge: both are in range and the matrix entry
is nonzero. -/
def Graph.Adjacent (g : Graph) (a b : Int) : Prop :=
  g.InRange a ∧ g.InRange b ∧ g.weights a b ≠ 0

instance (g : Graph) (a b : Int) : Decidable (g.Adjacent a b) := by
  unfold Graph.Adjacent; infer_instance

/-- Every two consecutive vertices of the sequence are joined by an edge. -/
def Graph.IsChain (g : Graph) : List Int → Prop
  | a :: b :: rest => g.Adjacent a b ∧ Graph.IsChain g (b :: rest)
  | _ => True

instance Graph.decIsChain (g : Graph) : (p : List Int) → Decidable (g.IsChain p)
  | [] => isTrue trivial
  | [_] => isTrue trivial
  | a :: b :: rest =>
    have := Graph.decIsChain g (b :: rest)
    inferInstanceAs (Decidable (g.Adjacent a b ∧ Graph.IsChain g (b :: rest)))

/-- The total weight of a vertex sequence: the sum of the matrix entries of its steps. -/
def Graph.pathWeight (g : Graph) : List Int → Double
  | a :: b :: rest => g.weights a b + Graph.pathWeight g (b :: rest)
  | _ => 0

/-- The sequence `p` is a path from `u` to `v`: it starts with the in-range vertex `u`,
ends with `v`, and every step is an edge of the graph. -/
def Graph.IsPath (g : Graph) (u v : Int) (p : List Int) : Prop :=
  g.InRange u ∧ p.head? = some u ∧ p.getLast? = some v ∧ g.IsChain p

instance (g : Graph) (u v : Int) (p : List Int) : Decidable (g.IsPath u v p) := by
  unfold Graph.IsPath; infer_instance

/-- The vertex `x` can be reached from `s` over edges of the matrix `m`. -/
inductive Reach (m : List (List Double)) (s : Nat) : Nat → Prop where
  | refl : Reach m s s
  | step {x y : Nat} : Reach m s x → cell m x y ≠ 0 → y < m.length → Reach m s y

/-- The test of the relaxation loop for the edge from `c` to `j`: there is an edge, `j`
is unsettled and differs from `c`, and the way over `c` is shorter than `distances[j]`. -/
def Relaxes (m : List (List Double)) (vertMap : List Bool) (distances : List Double)
    (c j : Nat) : Prop :=
  cell m c j ≠ 0 ∧ vertMap[j]? = some false ∧ j ≠ c ∧
    distances.getD j 0 > distances.getD c 0 + cell m c j

/-- The graph of the scenario: vertices `0..3`, edges `(0,1,2)`, `(1,2,2)`, `(0,2,10)`. -/
def scenarioGraph : Graph :=
  ⟨[[0, 2, 10, 0], [2, 0, 2, 0], [10, 2, 0, 0], [0, 0, 0, 0]]⟩

/-- Two vertices joined by one edge whose weight is the largest finite `double`. -/
def heavyEdgeGraph : Graph := ⟨[[0, DBL_MAX], [DBL_MAX, 0]]⟩

/-- Three vertices in a row, both edges of weight `2^1023`: the sum of the two weights
overflows to infinity. -/
def heavyRowGraph : Graph :=
  ⟨[[0, .finite (2 ^ 1023), 0], [.finite (2 ^ 1023), 0, .finite (2 ^ 1023)],
    [0, .finite (2 ^ 1023), 0]]⟩

/-- Four vertices, the edges `(0, 1)` and `(0, 2)` of weight `2^53`, `(1, 3)` of weight `1`
and `(2, 3)` of weight `1/2`: the sums `2^53 + 1` and `2^53 + 1/2` both round to `2^53`. -/
def roundingGraph : Graph :=
  ⟨[[0, .finite (2 ^ 53), .finite (2 ^ 53), 0], [.finite (2 ^ 53), 0, 0, 1],
    [.finite (2 ^ 53), 0, 0, .finite (1 / 2)], [0, 1, .finite (1 / 2), 0]]⟩

/-- The edge `e` joins the unordered pair of vertices `{a, b}`. -/
def Edge.Joins (e : Edge) (a b : Int) : Prop :=
  (e.u = a ∧ e.v = b) ∨ (e.u = b ∧ e.v = a)

instance (e : Edge) (a b : Int) : Decidable (e.Joins a b) := by
  unfold Edge.Joins; infer_instance

/-- The weight that an edge list gives for the pair `{a, b}`: the weight of the last entry
of the list that joins `a` and `b`, `none` when no entry does. -/
def listedWeight : List Edge → Int → Int → Option Double
  | [], _, _ => none
  | e :: es, a, b =>
    match listedWeight es a b with
    | some w => some w
    | none => if e.Joins a b then some e.weight else none

/-- The edge `e` is written to the cell in row `i` and column `j` of the matrix. -/
def Edge.Hits (e : Edge) (i j : Nat) : Prop :=
  (i = toSizeT e.u ∧ j = toSizeT e.v) ∨ (i = toSizeT e.v ∧ j = toSizeT e.u)

instance (e : Edge) (i j : Nat) : Decidable (e.Hits i j) := by
  unfold Edge.Hits; infer_instance

/-- The weight of the last entry of an edge list that is written to the cell `(i, j)`. -/
def lastHit : List Edge → Nat → Nat → Option Double
  | [], _, _ => none
  | e :: es, i, j =>
    match lastHit es i j with
    | some w => some w
    | none => if e.Hits i j then some e.weight else none

/-- A valid edge: two distinct `int` endpoints and a strictly positive weight. -/
def Edge.Valid (e : Edge) : Prop := e.IsInt ∧ e.u ≠ e.v ∧ 0 < e.weight

instance (e : Edge) : Decidable e.Valid := by
  unfold Edge.Valid; infer_instance

/-- A caller that calls `AddEdge` on each element of the list in order; an exception of
one call ends the sequence. -/
def Graph.addEach (g : Graph) : List Edge → Mutation
  | [] => .done g
  | e :: es =>
    match g.AddEdge e with
    | .done g' => Graph.addEach g' es
    | r => r

/-- The graphs that a program builds from edges whose weights are positive: built by one
of the two constructors and changed by calls of `AddEdge` and `AddEdges` that return. -/
inductive Graph.Produced : Graph → Prop where
  | bySize {mem : Memory} {n : Nat} {g : Graph} : Graph.Graph_n mem n = .ok g →
      Graph.Produced g
  | byEdges {mem : Memory} {es : List Edge} {g : Graph} :
      (∀ e ∈ es, e.IsInt ∧ e.u ≠ e.v ∧ 0 < e.weight) →
      Graph.Graph_edges mem es = .ok g → Graph.Produced g
  | addEdge {g g' : Graph} {e : Edge} : Graph.Produced g → e.IsInt → 0 < e.weight →
      g.AddEdge e = .done g' → Graph.Produced g'
  | addEdges {g g' : Graph} {es : List Edge} : Graph.Produced g →
      (∀ e ∈ es, e.IsInt ∧ 0 < e.weight) → g.AddEdges es = .done g' → Graph.Produced g'

/-- The local vectors of `Graph::Path` when the first loop is entered. -/
def startState (n : Nat) (u : Int) : PathState :=
  ⟨List.replicate n false, (List.replicate n DBL_MAX).set (toSizeT u) 0,
    (List.replicate n (-1 : Int)).set (toSizeT u) u⟩

/-- A machine on which matrices of up to `1024` rows are allocated. -/
def smallMemory : Memory := ⟨1024, by decide, by decide⟩

/-- The edge list of the demonstration program `main`. -/
def mainEdges : List Edge := [⟨0, 1, 5⟩, ⟨4, 8, 9⟩, ⟨2, 1, 3⟩, ⟨10, 5, 2⟩, ⟨6, 9, 1⟩]

/-- The value of a normal return, `none` for every other outcome. -/
def Result.toOption {α : Type} : Result α → Option α
  | .ok a => some a
  | _ => none

/-- The entries of the matrix are symmetric, zero on the diagonal and not negative. -/
def SymNonneg (m : List (List Double)) : Prop :=
  ∀ i < m.length, ∀ j < m.length,
    cell m i j = cell m j i ∧ cell m i i = 0 ∧ 0 ≤ cell m i j

/-! ## Order of the doubles -/

theorem double_lt_irrefl (a : Double) : ¬ a < a := by
  cases a with
  | finite q => exact fun h => absurd (show q < q from h) (lt_irrefl q)
  | posInf => exact fun h => h
  | negInf => exact fun h => h
  | nan => exact fun h => h

theorem double_lt_trans {a b c : Double} (h1 : a < b) (h2 : b < c) : a < c := by
  cases a <;> cases b <;> cases c <;>
    first
    | exact False.elim h1
    | exact False.elim h2
    | exact trivial
    | exact (lt_trans (show (_ : Rat) < _ from h1) (show (_ : Rat) < _ from h2) :)

theorem double_le_of_lt {a b : Double} (h : a < b) : a ≤ b := by
  cases a <;> cases b <;>
    first
    | exact False.elim h
    | exact trivial
    | exact (le_of_lt (show (_ : Rat) < _ from h) :)

theorem double_lt_of_le_of_lt {a b c : Double} (h1 : a ≤ b) (h2 : b < c) : a < c := by
  cases a <;> cases b <;> cases c <;>
    first
    | exact False.elim h1
    | exact False.elim h2
    | exact trivial
    | exact (lt_of_le_of_lt (show (_ : Rat) ≤ _ from h1) (show (_ : Rat) < _ from h2) :)

theorem double_lt_of_lt_of_le {a b c : Double} (h1 : a < b) (h2 : b ≤ c) : a < c := by
  cases a <;> cases b <;> cases c <;>
    first
    | exact False.elim h1
    | exact False.elim h2
    | exact trivial
    | exact (lt_of_lt_of_le (show (_ : Rat) < _ from h1) (show (_ : Rat) ≤ _ from h2) :)

theorem double_not_le_of_lt {a b : Double} (h : a < b) : ¬ b ≤ a := by
  cases a <;> cases b <;>
    first
    | exact False.elim h
    | exact fun h2 => h2
    | exact fun h2 => absurd (show (_ : Rat) < _ from h) (not_lt.2 (show (_ : Rat) ≤ _ from h2))

theorem double_ne_of_lt {a b : Double} (h : a < b) : a ≠ b := by
  intro hab
  subst hab
  exact double_lt_irrefl a h

theorem double_ne_nan_of_lt {a b : Double} (h : a < b) : a ≠ .nan ∧ b ≠ .nan := by
  cases a <;> cases b <;> first | exact False.elim h | exact ⟨by simp, by simp⟩

/-- Two doubles that are not NaN are comparable. -/
theorem double_le_of_not_lt {a b : Double} (ha : a ≠ .nan) (hb : b ≠ .nan) (h : ¬ a < b) :
    b ≤ a := by
  cases a <;> cases b <;>
    first
    | exact absurd rfl ha
    | exact absurd rfl hb
    | exact trivial
    | exact absurd trivial h
    | exact (not_lt.1 (fun h2 : (_ : Rat) < _ => h h2) :)

theorem DBL_MAX_pos : (0 : Double) < DBL_MAX := by decide!

/-! ## Machine integers -/

theorem toSizeT_lt_iff {a : Int} {n : Nat} (ha : IsInt a) (hn : n < 2 ^ 31) :
    toSizeT a < n ↔ 0 ≤ a ∧ a < n := by
  unfold toSizeT IsInt at *
  omega

theorem toSizeT_eq_toNat {a : Int} (ha : IsInt a) (h0 : 0 ≤ a) : toSizeT a = a.toNat := by
  unfold toSizeT IsInt at *
  omega

theorem toSizeT_natCast {c : Nat} (hc : c < 2 ^ 31) : toSizeT (c : Int) = c := by
  unfold toSizeT
  omega

theorem toSizeT_inj {a b : Int} (ha : IsInt a) (hb : IsInt b) (h : toSizeT a = toSizeT b) :
    a = b := by
  unfold toSizeT IsInt at *
  omega

theorem inRange_iff {g : Graph} (hs : g.Sized) {a : Int} (ha : IsInt a) :
    g.InRange a ↔ toSizeT a < g.graph.length := by
  unfold Graph.InRange
  rw [toSizeT_lt_iff ha hs]

/-! ## Vector and matrix cells -/

theorem vecRead_eq_ok {α : Type} {xs : List α} {i : Nat} {a : α} :
    vecRead xs i = .ok a ↔ xs[i]? = some a := by
  unfold vecRead
  cases h : xs[i]? <;> simp

theorem square_row {g : Graph} (hsq : g.Square) {i : Nat} {row : List Double}
    (h : g.graph[i]? = some row) : row.length = g.graph.length :=
  hsq row (List.getElem?_mem h)

theorem readCell_eq_ok {m : List (List Double)} {i j : Nat} {w : Double} :
    readCell m i j = .ok w ↔ ∃ row, m[i]? = some row ∧ row[j]? = some w := by
  unfold readCell
  cases h : m[i]? <;> simp [vecRead_eq_ok]

theorem readCell_square {g : Graph} (hsq : g.Square) {i j : Nat}
    (hi : i < g.graph.length) (hj : j < g.graph.length) :
    readCell g.graph i j = .ok ((g.graph.getD i []).getD j 0) := by
  have hrow : g.graph[i]? = some g.graph[i] := List.getElem?_eq_getElem hi
  have hlen := square_row hsq hrow
  rw [readCell_eq_ok]
  refine ⟨g.graph[i], hrow, ?_⟩
  have hj' : j < (g.graph[i]).length := by omega
  simp [List.getD, hrow, List.getElem?_eq_getElem hj']

theorem weights_eq {g : Graph} {a b : Int} (ha : IsInt a) (hb : IsInt b)
    (h0a : 0 ≤ a) (h0b : 0 ≤ b) :
    g.weights a b = (g.graph.getD (toSizeT a) []).getD (toSizeT b) 0 := by
  unfold Graph.weights
  rw [toSizeT_eq_toNat ha h0a, toSizeT_eq_toNat hb h0b, if_pos ⟨h0a, h0b⟩]

theorem writeCell_eq_ok {m : List (List Double)} {i j : Nat} {w : Double} {m' : List (List Double)} :
    writeCell m i j w = .ok m' ↔
      ∃ row, m[i]? = some row ∧ j < row.length ∧ m' = m.set i (row.set j w) := by
  unfold writeCell vecWrite
  cases h : m[i]? with
  | none => simp
  | some row =>
    by_cases hj : j < row.length
    · simp [hj, eq_comm]
    · simp [hj]

theorem writeCell_square {m : List (List Double)} {i j : Nat} {w : Double}
    (hsq : Graph.Square ⟨m⟩) (hi : i < m.length) (hj : j < m.length) :
    ∃ m', writeCell m i j w = .ok m' ∧ Graph.Square ⟨m'⟩ ∧ m'.length = m.length := by
  have hrow : m[i]? = some m[i] := List.getElem?_eq_getElem hi
  have hlen : (m[i]).length = m.length := square_row hsq hrow
  refine ⟨m.set i ((m[i]).set j w), writeCell_eq_ok.2 ⟨m[i], hrow, by omega, rfl⟩, ?_, by simp⟩
  intro row hmem
  simp only [List.length_set]
  rcases List.mem_or_eq_of_mem_set hmem with h | h
  · exact hsq row h
  · rw [h, List.length_set, hlen]

theorem readCell_writeCell {m : List (List Double)} {i j : Nat} {w : Double} {m' : List (List Double)}
    (h : writeCell m i j w = .ok m') (i' j' : Nat) :
    readCell m' i' j' = if i' = i ∧ j' = j then .ok w else readCell m i' j' := by
  obtain ⟨row, hrow, hj, rfl⟩ := writeCell_eq_ok.1 h
  have hi : i < m.length := (List.getElem?_eq_some.1 hrow).1
  unfold readCell
  by_cases hii : i' = i
  · subst hii
    rw [List.getElem?_set, if_pos rfl, if_pos hi, hrow]
    by_cases hjj : j' = j
    · subst hjj
      simp [vecRead, List.getElem?_set, hj]
    · have hne : j ≠ j' := fun h => hjj h.symm
      simp [vecRead, List.getElem?_set, hne, hjj]
  · have hne : i ≠ i' := fun h => hii h.symm
    rw [List.getElem?_set_ne hne]
    simp [hii]

theorem putEdge_square {m : List (List Double)} {e : Edge} (hsq : Graph.Square ⟨m⟩)
    (hu : toSizeT e.u < m.length) (hv : toSizeT e.v < m.length) :
    ∃ m', putEdge m e = .ok m' ∧ Graph.Square ⟨m'⟩ ∧ m'.length = m.length ∧
      ∀ i j, readCell m' i j =
        if (i = toSizeT e.u ∧ j = toSizeT e.v) ∨ (i = toSizeT e.v ∧ j = toSizeT e.u)
        then .ok e.weight else readCell m i j := by
  obtain ⟨m1, h1, hsq1, hlen1⟩ := writeCell_square (w := e.weight) hsq hu hv
  obtain ⟨m2, h2, hsq2, hlen2⟩ :=
    writeCell_square (w := e.weight) hsq1 (hlen1 ▸ hv) (hlen1 ▸ hu)
  refine ⟨m2, ?_, hsq2, by omega, ?_⟩
  · unfold putEdge
    rw [h1]
    exact h2
  · intro i j
    rw [readCell_writeCell h2, readCell_writeCell h1]
    by_cases c1 : i = toSizeT e.v ∧ j = toSizeT e.u
    · simp [c1]
    · by_cases c2 : i = toSizeT e.u ∧ j = toSizeT e.v
      · simp [c1, c2]
      · simp [c1, c2]

/-! ## Queries -/

theorem At_of_readCell {g : Graph} {u v : Int} {w : Double}
    (hu : toSizeT u < g.graph.length) (hv : toSizeT v < g.graph.length)
    (h : readCell g.graph (toSizeT u) (toSizeT v) = .ok w) :
    g.At u v = if w = 0 then .graphException else .ok w := by
  unfold Graph.At
  rw [if_neg (by omega), h]

theorem Connected_of_readCell {g : Graph} {u v : Int} {w : Double}
    (hu : toSizeT u < g.graph.length) (hv : toSizeT v < g.graph.length)
    (h : readCell g.graph (toSizeT u) (toSizeT v) = .ok w) :
    g.Connected u v = if w = 0 then .ok false else .ok true := by
  unfold Graph.Connected
  rw [if_neg (by omega), h]

theorem readCell_weights {g : Graph} (hsq : g.Square) (hs : g.Sized) {a b : Int}
    (ha : IsInt a) (hb : IsInt b) (hra : g.InRange a) (hrb : g.InRange b) :
    readCell g.graph (toSizeT a) (toSizeT b) = .ok (g.weights a b) := by
  rw [weights_eq ha hb hra.1 hrb.1]
  exact readCell_square hsq ((inRange_iff hs ha).1 hra) ((inRange_iff hs hb).1 hrb)

/-- C6: on every graph (square matrix of fewer than `2^31` rows) and for every pair of
`int` arguments, `At(a, b)` throws the graph exception exactly when `a` or `b` is outside
`[0, vertexCount)` or the stored weight is zero, and returns the stored weight otherwise. -/
theorem At_throws_iff (g : Graph) (hsq : g.Square) (hs : g.Sized) (a b : Int)
    (ha : IsInt a) (hb : IsInt b) :
    (g.At a b = .graphException ↔ (¬ g.InRange a ∨ ¬ g.InRange b ∨ g.weights a b = 0)) ∧
    (¬ (¬ g.InRange a ∨ ¬ g.InRange b ∨ g.weights a b = 0) → g.At a b = .ok (g.weights a b)) := by
  by_cases hra : g.InRange a
  · by_cases hrb : g.InRange b
    · have hread := readCell_weights hsq hs ha hb hra hrb
      have hAt := At_of_readCell ((inRange_iff hs ha).1 hra) ((inRange_iff hs hb).1 hrb) hread
      by_cases hw : g.weights a b = 0
      · simp [hAt, hw]
      · simp [hAt, hw, hra, hrb]
    · have : g.graph.length ≤ toSizeT b :=
        Nat.le_of_not_lt fun h => hrb ((inRange_iff hs hb).2 h)
      simp [Graph.At, hrb, this]
  · have : g.graph.length ≤ toSizeT a :=
      Nat.le_of_not_lt fun h => hra ((inRange_iff hs ha).2 h)
    simp [Graph.At, hra, this]

/-- Witness for C6 on the graph with the single edge `(0, 1)` of weight `5`. -/
theorem At_throws_iff_witness :
    ((Graph.mk [[0, 5], [5, 0]]).At 0 1 = .graphException ↔
      (¬ (Graph.mk [[0, 5], [5, 0]]).InRange 0 ∨ ¬ (Graph.mk [[0, 5], [5, 0]]).InRange 1 ∨
        (Graph.mk [[0, 5], [5, 0]]).weights 0 1 = 0)) ∧
    (¬ (¬ (Graph.mk [[0, 5], [5, 0]]).InRange 0 ∨ ¬ (Graph.mk [[0, 5], [5, 0]]).InRange 1 ∨
        (Graph.mk [[0, 5], [5, 0]]).weights 0 1 = 0) →
      (Graph.mk [[0, 5], [5, 0]]).At 0 1 = .ok ((Graph.mk [[0, 5], [5, 0]]).weights 0 1)) :=
  At_throws_iff (Graph.mk [[0, 5], [5, 0]]) (by decide) (by decide) 0 1 (by decide) (by decide)

/-- C7: on every graph and for every pair of `int` arguments, `Connected(a, b)` returns
normally, with `true` exactly when both arguments are in `[0, vertexCount)` and the stored
weight is nonzero, and with `false` in every other case. -/
theorem Connected_true_iff (g : Graph) (hsq : g.Square) (hs : g.Sized) (a b : Int)
    (ha : IsInt a) (hb : IsInt b) :
    (g.Connected a b = .ok true ↔ (g.InRange a ∧ g.InRange b ∧ g.weights a b ≠ 0)) ∧
    (g.Connected a b = .ok false ↔ ¬ (g.InRange a ∧ g.InRange b ∧ g.weights a b ≠ 0)) := by
  by_cases hra : g.InRange a
  · by_cases hrb : g.InRange b
    · have hread := readCell_weights hsq hs ha hb hra hrb
      have hC := Connected_of_readCell ((inRange_iff hs ha).1 hra)
        ((inRange_iff hs hb).1 hrb) hread
      by_cases hw : g.weights a b = 0
      · simp [hC, hw]
      · simp [hC, hw, hra, hrb]
    · have : g.graph.length ≤ toSizeT b :=
        Nat.le_of_not_lt fun h => hrb ((inRange_iff hs hb).2 h)
      simp [Graph.Connected, hrb, this]
  · have : g.graph.length ≤ toSizeT a :=
      Nat.le_of_not_lt fun h => hra ((inRange_iff hs ha).2 h)
    simp [Graph.Connected, hra, this]

/-- Witness for C7 with a negative first argument. -/
theorem Connected_true_iff_witness :
    ((Graph.mk [[0, 5], [5, 0]]).Connected (-1) 1 = .ok true ↔
      ((Graph.mk [[0, 5], [5, 0]]).InRange (-1) ∧ (Graph.mk [[0, 5], [5, 0]]).InRange 1 ∧
        (Graph.mk [[0, 5], [5, 0]]).weights (-1) 1 ≠ 0)) ∧
    ((Graph.mk [[0, 5], [5, 0]]).Connected (-1) 1 = .ok false ↔
      ¬ ((Graph.mk [[0, 5], [5, 0]]).InRange (-1) ∧ (Graph.mk [[0, 5], [5, 0]]).InRange 1 ∧
        (Graph.mk [[0, 5], [5, 0]]).weights (-1) 1 ≠ 0)) :=
  Connected_true_iff (Graph.mk [[0, 5], [5, 0]]) (by decide) (by decide) (-1) 1
    (by decide) (by decide)

/-- C4: on every graph and for every pair of `int` arguments of which one is outside
`[0, vertexCount)`, negative values included, `Path(u, v)` returns `nullopt`. -/
theorem Path_out_of_range (g : Graph) (hs : g.Sized) (u v : Int) (hu : IsInt u) (hv : IsInt v)
    (h : ¬ g.InRange u ∨ ¬ g.InRange v) : g.Path u v = .ok none := by
  unfold Graph.Path
  rw [if_pos]
  rw [inRange_iff hs hu, inRange_iff hs hv] at h
  omega

/-- Witness for C4 with a negative source on a graph of two vertices. -/
theorem Path_out_of_range_witness :
    (Graph.mk [[0, 5], [5, 0]]).Path (-3) 1 = .ok none :=
  Path_out_of_range (Graph.mk [[0, 5], [5, 0]]) (by decide) (-3) 1 (by decide) (by decide)
    (by decide)

/-! ## Insertion -/

theorem AddEdges_append (g : Graph) (xs ys : List Edge) :
    g.AddEdges (xs ++ ys) =
      match g.AddEdges xs with
      | .done g1 => g1.AddEdges ys
      | r => r := by
  induction xs generalizing g with
  | nil => simp [Graph.AddEdges]
  | cons e es ih =>
    simp only [List.cons_append, Graph.AddEdges]
    split
    · rfl
    · cases h : putEdge g.graph e with
      | ok m => exact ih ⟨m⟩
      | graphException => rfl
      | allocFailure => rfl
      | undefined => rfl
      | outOfFuel => rfl

theorem AddEdges_square (es : List Edge) (g : Graph) (hsq : g.Square) :
    ∃ g', (g.AddEdges es = .done g' ∨ g.AddEdges es = .thrown g') ∧ g'.Square ∧
      g'.graph.length = g.graph.length := by
  induction es generalizing g with
  | nil => exact ⟨g, Or.inl rfl, hsq, rfl⟩
  | cons e es ih =>
    unfold Graph.AddEdges
    split
    · exact ⟨g, Or.inr rfl, hsq, rfl⟩
    · rename_i hc
      have hu : toSizeT e.u < g.graph.length := by omega
      have hv : toSizeT e.v < g.graph.length := by omega
      obtain ⟨m, hput, hsq', hlen, -⟩ := putEdge_square (e := e) hsq hu hv
      rw [hput]
      obtain ⟨g', hres, hsq'', hlen'⟩ := ih ⟨m⟩ hsq'
      exact ⟨g', hres, hsq'', by rw [hlen']; exact hlen⟩

theorem AddEdges_done_frame (es : List Edge) (g g' : Graph) (hsq : g.Square)
    (h : g.AddEdges es = .done g') (i j : Nat)
    (hij : ∀ e' ∈ es, ¬ ((i = toSizeT e'.u ∧ j = toSizeT e'.v) ∨
      (i = toSizeT e'.v ∧ j = toSizeT e'.u))) :
    readCell g'.graph i j = readCell g.graph i j := by
  induction es generalizing g with
  | nil =>
    simp only [Graph.AddEdges, Mutation.done.injEq] at h
    rw [h]
  | cons e es ih =>
    unfold Graph.AddEdges at h
    split at h
    · cases h
    · rename_i hc
      have hu : toSizeT e.u < g.graph.length := by omega
      have hv : toSizeT e.v < g.graph.length := by omega
      obtain ⟨m, hput, hsq', -, hread⟩ := putEdge_square (e := e) hsq hu hv
      rw [hput] at h
      rw [ih ⟨m⟩ hsq' h (fun e' he' => hij e' (List.mem_cons_of_mem _ he')), hread,
        if_neg (hij e (List.mem_cons_self _ _))]

theorem hasEdge_of_readCell {g : Graph} {a b : Int} {w : Double} (hw : w ≠ 0)
    (ha : toSizeT a < g.graph.length) (hb : toSizeT b < g.graph.length)
    (hab : readCell g.graph (toSizeT a) (toSizeT b) = .ok w)
    (hba : readCell g.graph (toSizeT b) (toSizeT a) = .ok w) : g.HasEdge a b w := by
  unfold Graph.HasEdge
  rw [Connected_of_readCell ha hb hab, Connected_of_readCell hb ha hba,
    At_of_readCell ha hb hab, At_of_readCell hb ha hba]
  simp [hw]

theorem putEdge_hasEdge {m m' : List (List Double)} {e : Edge} (hsq : Graph.Square ⟨m⟩)
    (hu : toSizeT e.u < m.length) (hv : toSizeT e.v < m.length)
    (hput : putEdge m e = .ok m') :
    Graph.Square ⟨m'⟩ ∧ readCell m' (toSizeT e.u) (toSizeT e.v) = .ok e.weight ∧
      readCell m' (toSizeT e.v) (toSizeT e.u) = .ok e.weight ∧ m'.length = m.length := by
  obtain ⟨m2, hput2, hsq2, hlen2, hread⟩ := putEdge_square (e := e) hsq hu hv
  rw [hput] at hput2
  cases hput2
  refine ⟨hsq2, ?_, ?_, hlen2⟩
  · rw [hread]; simp
  · rw [hread]; simp

/-- C8: on every graph and for every edge `(a, b, w)` with `a != b`, `w > 0` and both
endpoints in range, `AddEdge` returns normally, and after it - as after every successful
`AddEdges` in which the edge is the last entry for its pair - `Connected(a, b)` and
`Connected(b, a)` are true and `At(a, b) = At(b, a) = w`, whatever was stored before. -/
theorem AddEdge_then_lookup (g : Graph) (hsq : g.Square) (hs : g.Sized) (e : Edge)
    (he : e.IsInt) (hne : e.u ≠ e.v) (hw : 0 < e.weight)
    (hru : g.InRange e.u) (hrv : g.InRange e.v) :
    (∃ g', g.AddEdge e = .done g' ∧ g'.HasEdge e.u e.v e.weight) ∧
    (∀ (pre post : List Edge) (g' : Graph), (∀ e' ∈ post, e'.IsInt) →
      (∀ e' ∈ post, ¬ e'.SamePair e) → g.AddEdges (pre ++ e :: post) = .done g' →
      g'.HasEdge e.u e.v e.weight) := by
  have hu : toSizeT e.u < g.graph.length := (inRange_iff hs he.2).1 hru
  have hv : toSizeT e.v < g.graph.length := (inRange_iff hs he.1).1 hrv
  have hw0 : e.weight ≠ 0 := (double_ne_of_lt hw).symm
  constructor
  · obtain ⟨m, hput, -⟩ := putEdge_square (e := e) hsq hu hv
    obtain ⟨-, hab, hba, hlen⟩ := putEdge_hasEdge hsq hu hv hput
    refine ⟨⟨m⟩, ?_, hasEdge_of_readCell hw0 (hlen ▸ hu) (hlen ▸ hv) hab hba⟩
    unfold Graph.AddEdge
    rw [if_neg (by rintro (h | h); exacts [hne h, double_not_le_of_lt hw h]), hput]
  · intro pre post g' hint hpost hdone
    rw [AddEdges_append] at hdone
    obtain ⟨g1, hpre, hsq1, hlen1⟩ := AddEdges_square pre g hsq
    rcases hpre with hpre | hpre
    · rw [hpre] at hdone
      simp only [Graph.AddEdges] at hdone
      rw [if_neg (by
        rintro (h | h | h | h)
        · exact hne h
        · exact double_not_le_of_lt hw h
        · omega
        · omega)] at hdone
      obtain ⟨m, hput, hsqm, -⟩ :=
        putEdge_square (e := e) hsq1 (hlen1 ▸ hu) (hlen1 ▸ hv)
      obtain ⟨-, hab, hba, hlen⟩ := putEdge_hasEdge hsq1 (hlen1 ▸ hu) (hlen1 ▸ hv) hput
      rw [hput] at hdone
      dsimp only at hdone
      obtain ⟨g2, hres, -, hlen2⟩ := AddEdges_square post ⟨m⟩ hsqm
      have hlen' : g'.graph.length = g.graph.length := by
        rcases hres with hres | hres
        · rw [hres] at hdone; cases hdone
          rw [hlen2]; exact hlen.trans hlen1
        · rw [hres] at hdone; cases hdone
      have key : ∀ e' ∈ post, ¬ ((toSizeT e.u = toSizeT e'.u ∧ toSizeT e.v = toSizeT e'.v) ∨
          (toSizeT e.u = toSizeT e'.v ∧ toSizeT e.v = toSizeT e'.u)) := by
        intro e' he' hc
        apply hpost e' he'
        have hi := hint e' he'
        rcases hc with ⟨h1, h2⟩ | ⟨h1, h2⟩
        · exact Or.inl ⟨(toSizeT_inj he.2 hi.2 h1).symm, (toSizeT_inj he.1 hi.1 h2).symm⟩
        · exact Or.inr ⟨(toSizeT_inj he.1 hi.2 h2).symm, (toSizeT_inj he.2 hi.1 h1).symm⟩
      have key' : ∀ e' ∈ post, ¬ ((toSizeT e.v = toSizeT e'.u ∧ toSizeT e.u = toSizeT e'.v) ∨
          (toSizeT e.v = toSizeT e'.v ∧ toSizeT e.u = toSizeT e'.u)) := by
        intro e' he' hc
        apply key e' he'
        rcases hc with ⟨h1, h2⟩ | ⟨h1, h2⟩
        · exact Or.inr ⟨h2, h1⟩
        · exact Or.inl ⟨h2, h1⟩
      have hab' := AddEdges_done_frame post ⟨m⟩ g' hsqm hdone _ _ key
      have hba' := AddEdges_done_frame post ⟨m⟩ g' hsqm hdone _ _ key'
      exact hasEdge_of_readCell hw0 (hlen' ▸ hu) (hlen' ▸ hv) (hab'.trans hab) (hba'.trans hba)
    · rw [hpre] at hdone
      cases hdone

/-- Witness for C8: the edge `(0, 1)` is given the weight `7` over the stored weight `5`. -/
theorem AddEdge_then_lookup_witness :
    (∃ g', (Graph.mk [[0, 5], [5, 0]]).AddEdge ⟨1, 0, 7⟩ = .done g' ∧ g'.HasEdge 0 1 7) ∧
    (∀ (pre post : List Edge) (g' : Graph), (∀ e' ∈ post, e'.IsInt) →
      (∀ e' ∈ post, ¬ e'.SamePair ⟨1, 0, 7⟩) →
      (Graph.mk [[0, 5], [5, 0]]).AddEdges (pre ++ ⟨1, 0, 7⟩ :: post) = .done g' →
      g'.HasEdge 0 1 7) :=
  AddEdge_then_lookup (Graph.mk [[0, 5], [5, 0]]) (by decide) (by decide) ⟨1, 0, 7⟩
    (by decide) (by decide) (by decide!) (by decide) (by decide)

theorem scanEdges_invalid (pre post : List Edge) (e : Edge)
    (h : e.u = e.v ∨ e.weight ≤ 0) (maxVert : Nat) :
    scanEdges (pre ++ e :: post) maxVert = none := by
  induction pre generalizing maxVert with
  | nil => simp [scanEdges, h]
  | cons x xs ih =>
    simp only [List.cons_append, scanEdges]
    split
    · rfl
    · exact ih _

/-- C9: an edge `(a, a, w)`, or `(a, b, w)` with `w <= 0`, makes every insertion path
fail with the graph exception: `AddEdge`, `AddEdges` of a batch in which it occurs, and
the edge-list constructor of a list in which it occurs. -/
theorem invalid_edge_throws (g : Graph) (e : Edge) (h : e.u = e.v ∨ e.weight ≤ 0) :
    g.AddEdge e = .thrown g ∧
    (∀ pre post : List Edge, g.Square → ∃ g', g.AddEdges (pre ++ e :: post) = .thrown g') ∧
    (∀ (mem : Memory) (pre post : List Edge),
      Graph.Graph_edges mem (pre ++ e :: post) = .graphException) := by
  refine ⟨?_, ?_, ?_⟩
  · unfold Graph.AddEdge
    rw [if_pos h]
  · intro pre post hsq
    rw [AddEdges_append]
    obtain ⟨g1, hpre, -, -⟩ := AddEdges_square pre g hsq
    rcases hpre with hpre | hpre
    · refine ⟨g1, ?_⟩
      rw [hpre]
      simp only [Graph.AddEdges]
      rw [if_pos]
      rcases h with h | h
      · exact Or.inl h
      · exact Or.inr (Or.inl h)
    · exact ⟨g1, by rw [hpre]⟩
  · intro mem pre post
    unfold Graph.Graph_edges
    rw [scanEdges_invalid pre post e h]

/-- Witness for C9 with the self-loop `(1, 1, 3)`. -/
theorem invalid_edge_throws_witness :
    (Graph.mk [[0, 5], [5, 0]]).AddEdge ⟨1, 1, 3⟩ = .thrown (Graph.mk [[0, 5], [5, 0]]) ∧
    (∀ pre post : List Edge, (Graph.mk [[0, 5], [5, 0]]).Square →
      ∃ g', (Graph.mk [[0, 5], [5, 0]]).AddEdges (pre ++ ⟨1, 1, 3⟩ :: post) = .thrown g') ∧
    (∀ (mem : Memory) (pre post : List Edge),
      Graph.Graph_edges mem (pre ++ ⟨1, 1, 3⟩ :: post) = .graphException) :=
  invalid_edge_throws (Graph.mk [[0, 5], [5, 0]]) ⟨1, 1, 3⟩ (by decide)

/-- C10: `AddEdge` does not compare the endpoints with `graph.size()`: for an edge that
passes the self-loop and weight checks and has an endpoint outside `[0, vertexCount)` the
assignments run out of the bounds of the matrix, which is undefined behaviour, where the
class documentation promises the graph exception. -/
theorem AddEdge_out_of_range (g : Graph) (hsq : g.Square) (hs : g.Sized) (e : Edge)
    (he : e.IsInt) (hne : e.u ≠ e.v) (hw : 0 < e.weight)
    (hr : ¬ g.InRange e.u ∨ ¬ g.InRange e.v) : g.AddEdge e = .undefined := by
  rw [inRange_iff hs he.2, inRange_iff hs he.1] at hr
  unfold Graph.AddEdge
  rw [if_neg (by rintro (h | h); exacts [hne h, double_not_le_of_lt hw h])]
  have : putEdge g.graph e = .undefined := by
    unfold putEdge writeCell
    cases hrow : g.graph[toSizeT e.u]? with
    | none => rfl
    | some row =>
      have hlen := square_row hsq hrow
      have hu : toSizeT e.u < g.graph.length := (List.getElem?_eq_some.1 hrow).1
      have hv : ¬ toSizeT e.v < row.length := by omega
      simp [vecWrite, hv]
  rw [this]

/-- Witness for C10: the edge `(0, 5)` of weight `1` on a graph of two vertices. -/
theorem AddEdge_out_of_range_witness :
    (Graph.mk [[0, 0], [0, 0]]).AddEdge ⟨5, 0, 1⟩ = .undefined :=
  AddEdge_out_of_range (Graph.mk [[0, 0], [0, 0]]) (by decide) (by decide) ⟨5, 0, 1⟩
    (by decide) (by decide) (by decide!) (by decide)

/-! ## The representation invariant

Both constructors, when the allocation succeeds, build a square matrix of fewer than
`2^31` rows, and the insertions that return keep the matrix square and of the same size. -/

theorem writeCell_ok_square {m m' : List (List Double)} {i j : Nat} {w : Double}
    (hsq : Graph.Square ⟨m⟩) (h : writeCell m i j w = .ok m') :
    Graph.Square ⟨m'⟩ ∧ m'.length = m.length := by
  obtain ⟨row, hrow, -, rfl⟩ := writeCell_eq_ok.1 h
  have hlen : row.length = m.length := square_row (g := ⟨m⟩) hsq hrow
  refine ⟨?_, by simp⟩
  intro r hmem
  simp only [List.length_set]
  rcases List.mem_or_eq_of_mem_set hmem with h | h
  · exact hsq r h
  · rw [h, List.length_set, hlen]

theorem putEdge_ok_square {m m' : List (List Double)} {e : Edge}
    (hsq : Graph.Square ⟨m⟩) (h : putEdge m e = .ok m') :
    Graph.Square ⟨m'⟩ ∧ m'.length = m.length := by
  unfold putEdge at h
  cases h1 : writeCell m (toSizeT e.u) (toSizeT e.v) e.weight with
  | ok m1 =>
    rw [h1] at h
    obtain ⟨hsq1, hlen1⟩ := writeCell_ok_square hsq h1
    obtain ⟨hsq2, hlen2⟩ := writeCell_ok_square hsq1 h
    exact ⟨hsq2, hlen2.trans hlen1⟩
  | graphException => rw [h1] at h; cases h
  | allocFailure => rw [h1] at h; cases h
  | undefined => rw [h1] at h; cases h
  | outOfFuel => rw [h1] at h; cases h

theorem fillEdges_ok_square (es : List Edge) {m m' : List (List Double)}
    (hsq : Graph.Square ⟨m⟩) (h : fillEdges m es = .ok m') :
    Graph.Square ⟨m'⟩ ∧ m'.length = m.length := by
  induction es generalizing m with
  | nil =>
    simp only [fillEdges, Result.ok.injEq] at h
    subst h
    exact ⟨hsq, rfl⟩
  | cons e es ih =>
    unfold fillEdges at h
    cases h1 : putEdge m e with
    | ok m1 =>
      rw [h1] at h
      obtain ⟨hsq1, hlen1⟩ := putEdge_ok_square hsq h1
      obtain ⟨hsq2, hlen2⟩ := ih hsq1 h
      exact ⟨hsq2, hlen2.trans hlen1⟩
    | graphException => rw [h1] at h; cases h
    | allocFailure => rw [h1] at h; cases h
    | undefined => rw [h1] at h; cases h
    | outOfFuel => rw [h1] at h; cases h

/-- A matrix that is allocated has fewer than `2^31` rows. -/
theorem memory_rows_lt (mem : Memory) : mem.rows < 2 ^ 31 := by
  by_contra h
  have h1 : 2 ^ 31 ≤ mem.rows := Nat.le_of_not_lt h
  have h2 : 2 ^ 31 * 2 ^ 31 ≤ mem.rows * mem.rows := Nat.mul_le_mul h1 h1
  have h3 := mem.fits
  omega

theorem allocMatrix_ok {mem : Memory} {n : Nat} {m : List (List Double)}
    (h : allocMatrix mem n = .ok m) :
    Graph.Square ⟨m⟩ ∧ m.length = n ∧ n < 2 ^ 31 := by
  unfold allocMatrix at h
  split at h
  · rename_i hn
    simp only [Result.ok.injEq] at h
    subst h
    refine ⟨?_, by simp, lt_of_le_of_lt hn (memory_rows_lt mem)⟩
    intro row hrow
    rw [List.eq_of_mem_replicate hrow]
    simp
  · cases h

theorem Graph_n_inv {mem : Memory} {n : Nat} {g : Graph} (h : Graph.Graph_n mem n = .ok g) :
    g.Square ∧ g.Sized ∧ g.graph.length = n := by
  unfold Graph.Graph_n at h
  cases h1 : allocMatrix mem n with
  | ok m =>
    rw [h1] at h
    simp only [Result.ok.injEq] at h
    subst h
    obtain ⟨hsq, hlen, hn⟩ := allocMatrix_ok h1
    exact ⟨hsq, by unfold Graph.Sized; rw [hlen]; exact hn, hlen⟩
  | graphException => rw [h1] at h; cases h
  | allocFailure => rw [h1] at h; cases h
  | undefined => rw [h1] at h; cases h
  | outOfFuel => rw [h1] at h; cases h

theorem Graph_edges_inv {mem : Memory} {es : List Edge} {g : Graph}
    (h : Graph.Graph_edges mem es = .ok g) :
    g.Square ∧ g.Sized := by
  unfold Graph.Graph_edges at h
  cases h0 : scanEdges es 0 with
  | none => rw [h0] at h; cases h
  | some maxVert =>
    rw [h0] at h
    dsimp only at h
    cases h1 : allocMatrix mem ((maxVert + 1) % 2 ^ 64) with
    | ok m =>
      rw [h1] at h
      dsimp only at h
      obtain ⟨hsq, hlen, hn⟩ := allocMatrix_ok h1
      cases h2 : fillEdges m es with
      | ok m' =>
        rw [h2] at h
        simp only [Result.ok.injEq] at h
        subst h
        obtain ⟨hsq', hlen'⟩ := fillEdges_ok_square es hsq h2
        exact ⟨hsq', by unfold Graph.Sized; rw [hlen', hlen]; exact hn⟩
      | graphException => rw [h2] at h; cases h
      | allocFailure => rw [h2] at h; cases h
      | undefined => rw [h2] at h; cases h
      | outOfFuel => rw [h2] at h; cases h
    | graphException => rw [h1] at h; cases h
    | allocFailure => rw [h1] at h; cases h
    | undefined => rw [h1] at h; cases h
    | outOfFuel => rw [h1] at h; cases h

theorem AddEdge_inv {g g' : Graph} {e : Edge} (hsq : g.Square)
    (h : g.AddEdge e = .done g') : g'.Square ∧ g'.graph.length = g.graph.length := by
  unfold Graph.AddEdge at h
  split at h
  · cases h
  · cases h1 : putEdge g.graph e with
    | ok m =>
      rw [h1] at h
      simp only [Mutation.done.injEq] at h
      subst h
      exact putEdge_ok_square hsq h1
    | graphException => rw [h1] at h; cases h
    | allocFailure => rw [h1] at h; cases h
    | undefined => rw [h1] at h; cases h
    | outOfFuel => rw [h1] at h; cases h

/-! ## Selection of the next vertex -/

theorem getD_of_getElem? {α : Type} {xs : List α} {i : Nat} {a : α} (d : α)
    (h : xs[i]? = some a) : xs.getD i d = a := by
  simp [List.getD, h]

theorem getElem?_of_lt {α : Type} {xs : List α} {i : Nat} (d : α) (h : i < xs.length) :
    xs[i]? = some (xs.getD i d) := by
  simp [List.getD, List.getElem?_eq_getElem h]

/-- Loop invariant of `getNextVertex`: no unsettled vertex seen so far has a distance below
`currentMin`, and `minIndex`, once assigned, is the first of them that attains it. -/
theorem getNextVertexLoop_spec (distances : List Double) (vertMap : List Bool)
    (hlen : vertMap.length = distances.length) (i : Nat) (hi : i ≤ distances.length) :
    ∃ currentMin minIndex,
      getNextVertexLoop distances vertMap i = .ok (currentMin, minIndex) ∧
      currentMin ≤ DBL_MAX ∧
      (∀ j < i, vertMap[j]? = some false → ¬ distances.getD j 0 < currentMin) ∧
      (minIndex = none → currentMin = DBL_MAX) ∧
      (∀ k, minIndex = some k → k < i ∧ vertMap[k]? = some false ∧
        distances.getD k 0 = currentMin ∧ currentMin < DBL_MAX ∧
        ∀ j < k, vertMap[j]? = some false → ¬ distances.getD j 0 ≤ currentMin) := by
  induction i with
  | zero =>
    refine ⟨DBL_MAX, none, rfl, by decide!, ?_, fun _ => rfl, ?_⟩
    · intro j hj; omega
    · intro k hk; cases hk
  | succ i ih =>
    obtain ⟨cm, mi, hloop, hle, hA, hB, hC⟩ := ih (by omega)
    have hid : i < distances.length := by omega
    have hiv : i < vertMap.length := by omega
    have hrd : vecRead distances i = .ok (distances.getD i 0) :=
      vecRead_eq_ok.2 (getElem?_of_lt 0 hid)
    have hrv : vecRead vertMap i = .ok (vertMap.getD i false) :=
      vecRead_eq_ok.2 (getElem?_of_lt false hiv)
    have hvi : vertMap[i]? = some (vertMap.getD i false) := getElem?_of_lt false hiv
    simp only [getNextVertexLoop, hloop, hrd, hrv]
    by_cases hgt : cm > distances.getD i 0
    · rw [if_pos hgt]
      cases hb : vertMap.getD i false with
      | false =>
        rw [hb] at hvi
        refine ⟨distances.getD i 0, some i, by simp,
          double_le_of_lt (double_lt_of_lt_of_le hgt hle), ?_, ?_, ?_⟩
        · intro j hj hjv hlt
          rcases Nat.lt_succ_iff_lt_or_eq.1 hj with h | h
          · exact hA j h hjv (double_lt_trans hlt hgt)
          · rw [h] at hlt; exact double_lt_irrefl _ hlt
        · intro h; cases h
        · intro k hk
          cases hk
          refine ⟨Nat.lt_succ_self _, hvi, rfl, double_lt_of_lt_of_le hgt hle, ?_⟩
          intro j hj hjv hjle
          exact hA j hj hjv (double_lt_of_le_of_lt hjle hgt)
      | true =>
        rw [hb] at hvi
        refine ⟨cm, mi, by simp, hle, ?_, hB, ?_⟩
        · intro j hj hjv
          rcases Nat.lt_succ_iff_lt_or_eq.1 hj with h | h
          · exact hA j h hjv
          · rw [h, hvi] at hjv; cases hjv
        · intro k hk
          obtain ⟨h1, h2⟩ := hC k hk
          exact ⟨Nat.lt_succ_of_lt h1, h2⟩
    · rw [if_neg hgt]
      refine ⟨cm, mi, rfl, hle, ?_, hB, ?_⟩
      · intro j hj hjv
        rcases Nat.lt_succ_iff_lt_or_eq.1 hj with h | h
        · exact hA j h hjv
        · rw [h]; exact hgt
      · intro k hk
        obtain ⟨h1, h2⟩ := hC k hk
        exact ⟨Nat.lt_succ_of_lt h1, h2⟩

/-- When some unsettled vertex has a distance below the sentinel, `getNextVertex` returns
an unsettled vertex `k` with a distance below the sentinel: no unsettled vertex has a
smaller distance, and no unsettled vertex before `k` has a distance as small. -/
theorem getNextVertex_some (distances : List Double) (vertMap : List Bool)
    (hlen : vertMap.length = distances.length)
    (hex : ∃ j, vertMap[j]? = some false ∧ distances.getD j 0 < DBL_MAX) :
    ∃ k, getNextVertex distances vertMap = .ok k ∧ vertMap[k]? = some false ∧
      distances.getD k 0 < DBL_MAX ∧
      (∀ j, vertMap[j]? = some false → ¬ distances.getD j 0 < distances.getD k 0) ∧
      (∀ j < k, vertMap[j]? = some false → ¬ distances.getD j 0 ≤ distances.getD k 0) := by
  obtain ⟨cm, mi, hloop, -, hA, hB, hC⟩ :=
    getNextVertexLoop_spec distances vertMap hlen distances.length (le_refl _)
  have hrange : ∀ j, vertMap[j]? = some false → j < distances.length := by
    intro j hj
    have := (List.getElem?_eq_some.1 hj).1
    omega
  cases mi with
  | none =>
    obtain ⟨j, hj, hjd⟩ := hex
    have h1 := hA j (hrange j hj) hj
    rw [hB rfl] at h1
    exact absurd hjd h1
  | some k =>
    obtain ⟨-, h2, h3, h4, h5⟩ := hC k rfl
    refine ⟨k, ?_, h2, h3 ▸ h4, ?_, ?_⟩
    · simp only [getNextVertex, hloop]
    · intro j hj
      rw [h3]
      exact hA j (hrange j hj) hj
    · intro j hj hjv
      rw [h3]
      exact h5 j hj hjv

/-- When no unsettled vertex has a distance below the sentinel, `getNextVertex` returns
the local `minIndex` without ever having assigned it. -/
theorem getNextVertex_none (distances : List Double) (vertMap : List Bool)
    (hlen : vertMap.length = distances.length)
    (hno : ∀ j, vertMap[j]? = some false → ¬ distances.getD j 0 < DBL_MAX) :
    getNextVertex distances vertMap = .undefined := by
  obtain ⟨cm, mi, hloop, -, -, -, hC⟩ :=
    getNextVertexLoop_spec distances vertMap hlen distances.length (le_refl _)
  cases mi with
  | none => simp only [getNextVertex, hloop]
  | some k =>
    obtain ⟨-, h2, h3, h4, -⟩ := hC k rfl
    have := hno k h2
    rw [h3] at this
    exact absurd h4 this

/-! ## The query for a single vertex -/

/-- C5: on every graph and for every in-range vertex `u`, `Path(u, u)` returns the
one-element sequence `[u]`, whose total weight is zero. -/
theorem Path_self (g : Graph) (u : Int) (hu : IsInt u) (hr : g.InRange u) :
    g.Path u u = .ok (some [u]) ∧ g.pathWeight [u] = 0 := by
  refine ⟨?_, rfl⟩
  have h0 : 0 ≤ u := hr.1
  have hs : toSizeT u = u.toNat := toSizeT_eq_toNat hu h0
  have hlt : u.toNat < g.graph.length := by
    have := hr.2
    omega
  have hcast : ((u.toNat : Nat) : Int) = u := Int.toNat_of_nonneg h0
  unfold Graph.Path
  rw [if_neg (by rw [hs]; omega), hs]
  have hsel : ∃ k, getNextVertex ((List.replicate g.graph.length DBL_MAX).set u.toNat 0)
      (List.replicate g.graph.length false) = .ok k ∧ k = u.toNat := by
    obtain ⟨k, hk, hkv, hkd, -⟩ := getNextVertex_some
      ((List.replicate g.graph.length DBL_MAX).set u.toNat 0)
      (List.replicate g.graph.length false) (by simp)
      ⟨u.toNat, by simp [hlt], by simp [List.getD, hlt, DBL_MAX_pos]⟩
    refine ⟨k, hk, ?_⟩
    by_contra hne
    have hkn : k < g.graph.length := by
      have := (List.getElem?_eq_some.1 hkv).1
      simpa using this
    have : ((List.replicate g.graph.length DBL_MAX).set u.toNat 0).getD k 0 = DBL_MAX := by
      simp [List.getD, List.getElem?_set, hkn, Ne.symm hne]
    rw [this] at hkd
    exact double_lt_irrefl _ hkd
  obtain ⟨k, hk, rfl⟩ := hsel
  simp only [pathLoop, hk, hcast, if_true, backTrackLoop, List.nil_append, List.reverse_cons,
    List.reverse_nil]

/-- Witness for C5 on the graph with the single edge `(0, 1)`. -/
theorem Path_self_witness :
    (Graph.mk [[0, 5], [5, 0]]).Path 1 1 = .ok (some [1]) ∧
      (Graph.mk [[0, 5], [5, 0]]).pathWeight [1] = 0 :=
  Path_self (Graph.mk [[0, 5], [5, 0]]) 1 (by decide) (by decide)

/-! ## Relaxation -/

theorem readCell_cell {m : List (List Double)} (hsq : Graph.Square ⟨m⟩) {i j : Nat}
    (hi : i < m.length) (hj : j < m.length) : readCell m i j = .ok (cell m i j) :=
  readCell_square (g := ⟨m⟩) hsq hi hj

theorem cell_ne_zero_lt {m : List (List Double)} {i j : Nat} (h : cell m i j ≠ 0) :
    i < m.length := by
  by_contra hlt
  apply h
  have : m[i]? = none := List.getElem?_eq_none (by omega)
  simp [cell, List.getD, this]

theorem getD_set_self {α : Type} {xs : List α} {i : Nat} {a d : α} (h : i < xs.length) :
    (xs.set i a).getD i d = a := by
  simp [List.getD, List.getElem?_set, h]

theorem getD_set_ne {α : Type} {xs : List α} {i j : Nat} {a d : α} (h : i ≠ j) :
    (xs.set i a).getD j d = xs.getD j d := by
  simp [List.getD, List.getElem?_set_ne h]

/-- Loop invariant of the relaxation loop: after `i` iterations exactly the vertices below
`i` that pass the test have the new distance and the predecessor `c`. -/
theorem relaxLoop_spec (m : List (List Double)) (hsq : Graph.Square ⟨m⟩) (vertMap : List Bool)
    (d : List Double) (bt : List Int) (hvm : vertMap.length = m.length)
    (hd : d.length = m.length) (hbt : bt.length = m.length) (c : Nat) (hc : c < m.length)
    (i : Nat) (hi : i ≤ m.length) :
    ∃ d' bt', relaxLoop m vertMap c (d, bt) i = .ok (d', bt') ∧
      d'.length = m.length ∧ bt'.length = m.length ∧
      ∀ j, (j < i ∧ Relaxes m vertMap d c j →
          d'.getD j 0 = d.getD c 0 + cell m c j ∧ bt'[j]? = some (c : Int)) ∧
        (¬ (j < i ∧ Relaxes m vertMap d c j) → d'.getD j 0 = d.getD j 0 ∧ bt'[j]? = bt[j]?) := by
  induction i with
  | zero =>
    refine ⟨d, bt, rfl, hd, hbt, fun j => ⟨?_, fun _ => ⟨rfl, rfl⟩⟩⟩
    rintro ⟨h, -⟩
    omega
  | succ i ih =>
    obtain ⟨di, bti, hloop, hdi, hbti, hchar⟩ := ih (by omega)
    have hin : i < m.length := by omega
    have hcell : readCell m c i = .ok (cell m c i) := readCell_cell hsq hc hin
    have hvi : vertMap[i]? = some (vertMap.getD i false) := getElem?_of_lt false (by omega)
    have hrv : vecRead vertMap i = .ok (vertMap.getD i false) := vecRead_eq_ok.2 hvi
    have hdi_i : di.getD i 0 = d.getD i 0 := ((hchar i).2 (fun h => by omega)).1
    have hdi_c : di.getD c 0 = d.getD c 0 :=
      ((hchar c).2 (fun h => h.2.2.2.1 rfl)).1
    have hrdi : vecRead di i = .ok (d.getD i 0) := by
      rw [← hdi_i]; exact vecRead_eq_ok.2 (getElem?_of_lt 0 (by omega))
    have hrdc : vecRead di c = .ok (d.getD c 0) := by
      rw [← hdi_c]; exact vecRead_eq_ok.2 (getElem?_of_lt 0 (by omega))
    -- the state is left alone when the test fails
    have keep : ¬ Relaxes m vertMap d c i →
        ∀ j, (j < i + 1 ∧ Relaxes m vertMap d c j →
          di.getD j 0 = d.getD c 0 + cell m c j ∧ bti[j]? = some (c : Int)) ∧
        (¬ (j < i + 1 ∧ Relaxes m vertMap d c j) →
          di.getD j 0 = d.getD j 0 ∧ bti[j]? = bt[j]?) := by
      intro hno j
      constructor
      · rintro ⟨hj, hr⟩
        have hji : j < i := by
          rcases Nat.lt_succ_iff_lt_or_eq.1 hj with h | h
          · exact h
          · exact absurd (h ▸ hr) hno
        exact (hchar j).1 ⟨hji, hr⟩
      · intro hn
        apply (hchar j).2
        rintro ⟨hj, hr⟩
        exact hn ⟨Nat.lt_succ_of_lt hj, hr⟩
    simp only [relaxLoop, hloop, hcell, hrv]
    by_cases hw : cell m c i ≠ 0
    · rw [if_pos hw]
      by_cases hb : (!vertMap.getD i false) = true ∧ i ≠ c
      · rw [if_pos hb]
        simp only [hrdi, hrdc]
        have hbf : vertMap.getD i false = false := by simpa using hb.1
        by_cases hgt : d.getD i 0 > d.getD c 0 + cell m c i
        · rw [if_pos hgt]
          have hw1 : vecWrite di i (d.getD c 0 + cell m c i) =
              .ok (di.set i (d.getD c 0 + cell m c i)) := by
            unfold vecWrite; rw [if_pos (by omega)]
          have hw2 : vecWrite bti i (c : Int) = .ok (bti.set i (c : Int)) := by
            unfold vecWrite; rw [if_pos (by omega)]
          simp only [hw1, hw2]
          refine ⟨_, _, rfl, by simpa using hdi, by simpa using hbti, ?_⟩
          intro j
          by_cases hji : j = i
          · subst hji
            constructor
            · intro _
              exact ⟨getD_set_self (by omega), by
                rw [List.getElem?_set, if_pos rfl, if_pos (by omega)]⟩
            · intro hn
              exact absurd ⟨Nat.lt_succ_self _, hw, hbf ▸ hvi, hb.2, hgt⟩ hn
          · have hne : i ≠ j := fun h => hji h.symm
            rw [getD_set_ne hne, List.getElem?_set_ne hne]
            constructor
            · rintro ⟨hj, hr⟩
              exact (hchar j).1 ⟨by omega, hr⟩
            · intro hn
              apply (hchar j).2
              rintro ⟨hj, hr⟩
              exact hn ⟨Nat.lt_succ_of_lt hj, hr⟩
        · rw [if_neg hgt]
          exact ⟨di, bti, rfl, hdi, hbti, keep (fun hr => hgt hr.2.2.2)⟩
      · rw [if_neg hb]
        refine ⟨di, bti, rfl, hdi, hbti, keep (fun hr => hb ⟨?_, hr.2.2.1⟩)⟩
        have := hr.2.1
        rw [hvi] at this
        simpa using this
    · rw [if_neg hw]
      exact ⟨di, bti, rfl, hdi, hbti, keep (fun hr => hw hr.1)⟩

theorem relaxLoop_full (m : List (List Double)) (hsq : Graph.Square ⟨m⟩) (vertMap : List Bool)
    (d : List Double) (bt : List Int) (hvm : vertMap.length = m.length)
    (hd : d.length = m.length) (hbt : bt.length = m.length) (c : Nat) (hc : c < m.length) :
    ∃ d' bt', relaxLoop m vertMap c (d, bt) m.length = .ok (d', bt') ∧
      d'.length = m.length ∧ bt'.length = m.length ∧
      ∀ j, (Relaxes m vertMap d c j →
          d'.getD j 0 = d.getD c 0 + cell m c j ∧ bt'[j]? = some (c : Int)) ∧
        (¬ Relaxes m vertMap d c j → d'.getD j 0 = d.getD j 0 ∧ bt'[j]? = bt[j]?) := by
  obtain ⟨d', bt', hloop, hd', hbt', hchar⟩ :=
    relaxLoop_spec m hsq vertMap d bt hvm hd hbt c hc m.length (le_refl _)
  refine ⟨d', bt', hloop, hd', hbt', fun j => ⟨fun hr => (hchar j).1 ⟨?_, hr⟩,
    fun hn => (hchar j).2 (fun h => hn h.2)⟩⟩
  have := (List.getElem?_eq_some.1 hr.2.1).1
  omega

/-! ## Reachability -/

theorem getD_replicate {α : Type} (n : Nat) (a d : α) (j : Nat) :
    (List.replicate n a).getD j d = if j < n then a else d := by
  by_cases h : j < n
  · rw [if_pos h]
    exact getD_of_getElem? d (List.getElem?_replicate_of_lt h)
  · rw [if_neg h]
    have : (List.replicate n a)[j]? = none := List.getElem?_eq_none (by simp; omega)
    simp [List.getD, this]

theorem set_true_eq_true {vm : List Bool} {k : Nat} (hk : k < vm.length) (x : Nat) :
    (vm.set k true)[x]? = some true ↔ (x = k ∨ vm[x]? = some true) := by
  rw [List.getElem?_set]
  by_cases h : k = x
  · subst h; simp [hk]
  · have : ¬ x = k := fun h' => h h'.symm
    simp [h, this]

theorem set_true_eq_false {vm : List Bool} {k : Nat} (x : Nat) :
    (vm.set k true)[x]? = some false ↔ (x ≠ k ∧ vm[x]? = some false) := by
  rw [List.getElem?_set]
  by_cases h : k = x
  · subst h
    by_cases hk : k < vm.length <;> simp [hk]
  · have : ¬ x = k := fun h' => h h'.symm
    simp [h, this]

theorem count_set_true {vm : List Bool} {k : Nat} (hk : vm[k]? = some false) :
    (vm.set k true).count true = vm.count true + 1 := by
  obtain ⟨hlt, hval⟩ := List.getElem?_eq_some.1 hk
  rw [List.count_set true true vm k hlt, hval]
  simp

theorem weights_inRange {g : Graph} {a b : Int} (ha : g.InRange a) (hb : g.InRange b) :
    g.weights a b = cell g.graph a.toNat b.toNat := by
  unfold Graph.weights cell
  rw [if_pos ⟨ha.1, hb.1⟩]

theorem inRange_natCast {g : Graph} {a : Nat} (ha : a < g.graph.length) :
    g.InRange (a : Int) := by
  unfold Graph.InRange
  omega

theorem weights_natCast {g : Graph} {a b : Nat} (ha : a < g.graph.length)
    (hb : b < g.graph.length) : g.weights (a : Int) (b : Int) = cell g.graph a b := by
  rw [weights_inRange (inRange_natCast ha) (inRange_natCast hb)]
  simp

theorem adjacent_natCast {g : Graph} {a b : Nat} (hb : b < g.graph.length)
    (h : cell g.graph a b ≠ 0) : g.Adjacent (a : Int) (b : Int) := by
  have ha : a < g.graph.length := cell_ne_zero_lt h
  refine ⟨inRange_natCast ha, inRange_natCast hb, ?_⟩
  rw [weights_natCast ha hb]
  exact h

theorem isChain_snoc {g : Graph} (q : List Int) (a b : Int) (hq : g.IsChain q)
    (hlast : q.getLast? = some a) (hab : g.Adjacent a b) : g.IsChain (q ++ [b]) := by
  induction q with
  | nil => simp at hlast
  | cons x rest ih =>
    cases rest with
    | nil =>
      simp only [List.getLast?_singleton, Option.some.injEq] at hlast
      subst hlast
      exact ⟨hab, trivial⟩
    | cons y rest' =>
      have hl : (y :: rest').getLast? = some a := by
        rw [← hlast]; simp [List.getLast?_cons_cons]
      exact ⟨hq.1, ih hq.2 hl⟩

theorem inRange_eq_natCast {g : Graph} {a : Int} (ha : g.InRange a) :
    ∃ s : Nat, a = s ∧ s < g.graph.length := by
  refine ⟨a.toNat, (Int.toNat_of_nonneg ha.1).symm, ?_⟩
  have := ha.2
  have := ha.1
  omega

/-- A vertex that can be reached from `s` is the end of a path from `s`. -/
theorem Reach.as_path {g : Graph} {s t : Nat} (hs : s < g.graph.length)
    (h : Reach g.graph s t) : ∃ q, g.IsPath (s : Int) (t : Int) q := by
  induction h with
  | refl => exact ⟨[(s : Int)], inRange_natCast hs, rfl, rfl, trivial⟩
  | @step x y _ hcell hlt ih =>
    obtain ⟨q, hr, hhead, hlast, hchain⟩ := ih
    refine ⟨q ++ [(y : Int)], hr, ?_, by simp,
      isChain_snoc q _ _ hchain hlast (adjacent_natCast hlt hcell)⟩
    cases q with
    | nil => simp at hhead
    | cons a rest => simpa using hhead

theorem chain_reach {g : Graph} {s : Nat} (b : Int) (q : List Int) :
    ∀ a : Int, g.IsChain (a :: q) → (a :: q).getLast? = some b →
      Reach g.graph s a.toNat → Reach g.graph s b.toNat := by
  induction q with
  | nil =>
    intro a _ hlast hw
    simp only [List.getLast?_singleton, Option.some.injEq] at hlast
    subst hlast
    exact hw
  | cons c rest ih =>
    intro a hchain hlast hw
    obtain ⟨hadj, hrest⟩ := hchain
    have hl : (c :: rest).getLast? = some b := by
      rw [← hlast]; simp [List.getLast?_cons_cons]
    have hcell : cell g.graph a.toNat c.toNat ≠ 0 := by
      rw [← weights_inRange hadj.1 hadj.2.1]; exact hadj.2.2
    have hcn : c.toNat < g.graph.length := by
      have := hadj.2.1.2
      have := hadj.2.1.1
      omega
    exact ih c hrest hl (Reach.step hw hcell hcn)

/-- The end of a path from `u` can be reached from `u`. -/
theorem Graph.IsPath.reach {g : Graph} {u v : Int} {q : List Int} (h : g.IsPath u v q) :
    Reach g.graph u.toNat v.toNat := by
  obtain ⟨-, hhead, hlast, hchain⟩ := h
  cases q with
  | nil => simp at hhead
  | cons a rest =>
    simp only [List.head?_cons, Option.some.injEq] at hhead
    subst hhead
    exact chain_reach v rest a hchain hlast Reach.refl

/-! ## The query for a vertex that cannot be reached -/

/-- When the target `t` cannot be reached from the source, the first loop of `Graph::Path`
settles every vertex it can reach and then calls `getNextVertex` without a candidate: a
distance below the sentinel is only ever written to a vertex that can be reached. -/
theorem pathLoop_unreachable {m : List (List Double)} (hsq : Graph.Square ⟨m⟩)
    {s t : Nat} (hno : ¬ Reach m s t) (fuel : Nat) (st : PathState)
    (hvm : st.vertMap.length = m.length) (hd : st.vertDistance.length = m.length)
    (hbt : st.backTrack.length = m.length)
    (hreach : ∀ j < m.length, st.vertDistance.getD j 0 < DBL_MAX → Reach m s j)
    (hfuel : m.length + 1 ≤ fuel + st.vertMap.count true) :
    pathLoop m (t : Int) fuel st = .undefined := by
  induction fuel generalizing st with
  | zero =>
    have h1 : st.vertMap.count true ≤ st.vertMap.length := List.count_le_length _ _
    omega
  | succ fuel ih =>
    have hlen : st.vertMap.length = st.vertDistance.length := by rw [hvm, hd]
    by_cases hex : ∃ j, st.vertMap[j]? = some false ∧ st.vertDistance.getD j 0 < DBL_MAX
    · obtain ⟨k, hsel, hk, hkd, -, -⟩ :=
        getNextVertex_some st.vertDistance st.vertMap hlen hex
      have hkn : k < st.vertMap.length := (List.getElem?_eq_some.1 hk).1
      have hkm : k < m.length := hvm ▸ hkn
      have hrk : Reach m s k := hreach k hkm hkd
      have hkt : k ≠ t := fun h => hno (h ▸ hrk)
      have hwr : vecWrite st.vertMap k true = .ok (st.vertMap.set k true) := by
        unfold vecWrite; rw [if_pos hkn]
      obtain ⟨d', bt', hrelax, hd', hbt', hchar⟩ := relaxLoop_full m hsq
        (st.vertMap.set k true) st.vertDistance st.backTrack (by simpa using hvm)
        hd hbt k hkm
      simp only [pathLoop, hsel, hwr, hrelax]
      rw [if_neg (by exact_mod_cast hkt)]
      apply ih ⟨st.vertMap.set k true, d', bt'⟩ (by simpa using hvm) hd' hbt'
      · intro j hj hjd
        by_cases hr : Relaxes m (st.vertMap.set k true) st.vertDistance k j
        · exact Reach.step hrk hr.1 hj
        · have hsame : d'.getD j 0 = st.vertDistance.getD j 0 := ((hchar j).2 hr).1
          exact hreach j hj (hsame ▸ hjd)
      · show m.length + 1 ≤ fuel + (st.vertMap.set k true).count true
        rw [count_set_true hk]
        omega
    · have hnone := getNextVertex_none st.vertDistance st.vertMap hlen (fun j hj hlt =>
        hex ⟨j, hj, hlt⟩)
      simp only [pathLoop, hnone]

/-- For arguments in range `Graph::Path` has no way to return `nullopt`: the only
`return std::nullopt` is the range check. -/
theorem Path_ne_nullopt (g : Graph) (u v : Int) (hu : toSizeT u < g.graph.length)
    (hv : toSizeT v < g.graph.length) : g.Path u v ≠ .ok none := by
  unfold Graph.Path
  rw [if_neg (by omega)]
  dsimp only
  split
  · split <;> simp
  all_goals simp

/-- C3: on every well-formed graph and for all in-range vertices `a` and `b` such that no
path leads from `a` to `b`, `Path(a, b)` does not return `nullopt`: once every vertex that
can be reached is settled, `getNextVertex` finds no candidate and returns its unassigned
`minIndex`, which is undefined behaviour. -/
theorem Path_unreachable_undefined (g : Graph) (hwf : g.WellFormed) (a b : Int)
    (hra : g.InRange a) (hrb : g.InRange b) (hno : ¬ ∃ q, g.IsPath a b q) :
    g.Path a b = .undefined := by
  obtain ⟨hsq, hsz, -, -, -⟩ := hwf
  obtain ⟨s, rfl, hs⟩ := inRange_eq_natCast hra
  obtain ⟨t, rfl, ht⟩ := inRange_eq_natCast hrb
  have hsz' : g.graph.length < 2 ^ 31 := hsz
  have hss : toSizeT (s : Int) = s := toSizeT_natCast (by omega)
  have hts : toSizeT (t : Int) = t := toSizeT_natCast (by omega)
  have hloop := pathLoop_unreachable hsq (s := s) (t := t)
    (fun hw => hno (hw.as_path hs)) (g.graph.length + 1)
    ⟨List.replicate g.graph.length false, (List.replicate g.graph.length DBL_MAX).set s 0,
      (List.replicate g.graph.length (-1 : Int)).set s (s : Int)⟩
    (by simp) (by simp) (by simp)
    (by
      intro j hj hjd
      by_cases hjs : j = s
      · rw [hjs]; exact Reach.refl
      · exfalso
        have hval : ((List.replicate g.graph.length DBL_MAX).set s 0).getD j 0 = DBL_MAX := by
          rw [getD_set_ne (fun h => hjs h.symm), getD_replicate, if_pos hj]
        rw [hval] at hjd
        exact double_lt_irrefl _ hjd)
    (by
      show g.graph.length + 1 ≤ g.graph.length + 1 + _
      omega)
  unfold Graph.Path
  rw [if_neg (by rw [hss, hts]; omega), hss]
  simp only [hloop]

/-- Witness for C3: `Graph(2)` has the vertices `0` and `1` and no edge. -/
theorem Path_unreachable_undefined_witness :
    Graph.Graph_n smallMemory 2 = .ok (Graph.mk [[0, 0], [0, 0]]) ∧
    (Graph.mk [[0, 0], [0, 0]]).Path 0 1 = .undefined :=
  ⟨by decide!,
    Path_unreachable_undefined (Graph.mk [[0, 0], [0, 0]]) (by decide!) 0 1 (by decide)
      (by decide) (by
        rintro ⟨q, hq⟩
        have hw := hq.reach
        simp only [Int.toNat_ofNat, Int.toNat_zero] at hw
        have key : ∀ t : Nat, Reach [[(0 : Double), 0], [0, 0]] 0 t → t = 0 := by
          intro t h
          induction h with
          | refl => rfl
          | @step x y _ hcell hlt _ =>
            exfalso
            apply hcell
            have hx : x < 2 := cell_ne_zero_lt hcell
            have hy : y < 2 := hlt
            interval_cases x <;> interval_cases y <;> rfl
        have := key _ hw
        omega)⟩

/-! ## The shortest path query on heavy edges

The sentinel for "not reached yet" is the finite value `numeric_limits<double>::max()`,
and the relaxation test `vertDistance[i] > vertDistance[currVert] + graph[currVert][i]` is
strict. A vertex whose only ways from the source have a computed length that is not below
the sentinel is therefore never given a distance, and the query for it ends like the query
for a vertex that cannot be reached: in `getNextVertex` without a candidate. -/

/-- The sums of the relaxation are rounded: with the edges `(0, 1)` and `(0, 2)` of weight
`2^53`, `(1, 3)` of weight `1` and `(2, 3)` of weight `1/2`, both ways to vertex `3` have
the computed length `2^53`, the strict test keeps the first of them, and `Path(0, 3)`
returns `[0, 1, 3]`. -/
theorem Path_rounds_sums :
    (Double.finite (2 ^ 53) + 1 : Double) = .finite (2 ^ 53) ∧
    (Double.finite (2 ^ 53) + .finite (1 / 2) : Double) = .finite (2 ^ 53) ∧
    roundingGraph.WellFormed ∧ roundingGraph.Path 0 3 = .ok (some [0, 1, 3]) := by
  decide!

/-- C1: the graph with the single edge `(0, 1)` of weight `numeric_limits<double>::max()`
is well-formed and `[0, 1]` is a path from `0` to `1`, the only one without a repeated
vertex, but the relaxation test `vertDistance[1] > 0 + weight` is false against the initial
sentinel, vertex `1` is never a candidate and `Path(0, 1)` returns no sequence: the call
ends in `getNextVertex`, which returns its unassigned `minIndex`. -/
theorem Path_shortest_fails_heavyEdge :
    heavyEdgeGraph.WellFormed ∧ heavyEdgeGraph.InRange 0 ∧ heavyEdgeGraph.InRange 1 ∧
    heavyEdgeGraph.IsPath 0 1 [0, 1] ∧ heavyEdgeGraph.Path 0 1 = .undefined := by
  decide!

/-- C2: in the well-formed graph with the edges `(0, 1)` and `(1, 2)` of weight `2^1023`
vertex `2` is reached from `0` over `[0, 1, 2]`, but the sum `2^1023 + 2^1023` overflows
to infinity, which is not below the sentinel; vertex `2` is never a candidate and
`Path(0, 2)` returns no sequence: the call ends in `getNextVertex`, which returns its
unassigned `minIndex`. -/
theorem Path_endpoints_fails_heavyRow :
    heavyRowGraph.WellFormed ∧ heavyRowGraph.InRange 0 ∧ heavyRowGraph.InRange 2 ∧
    heavyRowGraph.IsPath 0 2 [0, 1, 2] ∧
    (Double.finite (2 ^ 1023) + .finite (2 ^ 1023) : Double) = .posInf ∧
    heavyRowGraph.Path 0 2 = .undefined := by
  decide!

/-- C17: in the well-formed graph with the single edge `(0, 1)` of weight
`numeric_limits<double>::max()` vertex `0` is reached from `1`, but the first loop of
`Path(1, 0)` settles vertex `1` in its first pass and never selects vertex `0`: in the
second pass `getNextVertex` has no candidate and returns its unassigned `minIndex`, so
that the loop does not end by selecting the target. -/
theorem Path_terminates_fails_heavyEdge :
    heavyEdgeGraph.WellFormed ∧ heavyEdgeGraph.InRange 1 ∧ heavyEdgeGraph.InRange 0 ∧
    heavyEdgeGraph.IsPath 1 0 [1, 0] ∧
    getNextVertex (startState 2 1).vertDistance (startState 2 1).vertMap = .ok 1 ∧
    getNextVertex [DBL_MAX, 0] [false, true] = .undefined ∧
    pathLoop heavyEdgeGraph.graph 0 2 (startState 2 1) = .undefined ∧
    heavyEdgeGraph.Path 1 0 = .undefined := by
  decide!

/-- The scenario of the specification: with the edges `(0, 1, 2)`, `(1, 2, 2)` and
`(0, 2, 10)`, `Path(0, 2)` returns `[0, 1, 2]`. -/
theorem Path_scenario :
    scenarioGraph.WellFormed ∧ scenarioGraph.Path 0 2 = .ok (some [0, 1, 2]) ∧
    scenarioGraph.pathWeight [0, 1, 2] = 4 ∧ scenarioGraph.pathWeight [0, 2] = 10 := by
  decide!

/-! ## The edge-list constructor -/

theorem scanEdges_valid (es : List Edge) (hval : ∀ e ∈ es, e.u ≠ e.v ∧ 0 < e.weight)
    (m0 : Nat) :
    ∃ M, scanEdges es m0 = some M ∧ m0 ≤ M ∧
      (∀ e ∈ es, toSizeT e.u ≤ M ∧ toSizeT e.v ≤ M) ∧
      (M = m0 ∨ ∃ e ∈ es, M = toSizeT e.u ∨ M = toSizeT e.v) := by
  induction es generalizing m0 with
  | nil => exact ⟨m0, rfl, le_refl _, fun e he => absurd he (List.not_mem_nil e), Or.inl rfl⟩
  | cons e es ih =>
    have hv := hval e (List.mem_cons_self _ _)
    have hne : ¬ (e.u = e.v ∨ e.weight ≤ 0) := by
      rintro (h | h)
      · exact hv.1 h
      · exact double_not_le_of_lt hv.2 h
    obtain ⟨M, hM, hle, hall, hatt⟩ := ih (fun x hx => hval x (List.mem_cons_of_mem _ hx))
      (if toSizeT e.v > (if toSizeT e.u > m0 then toSizeT e.u else m0) then toSizeT e.v
        else (if toSizeT e.u > m0 then toSizeT e.u else m0))
    refine ⟨M, ?_, ?_, ?_, ?_⟩
    · simp only [scanEdges, if_neg hne]
      exact hM
    · split at hle <;> split at hle <;> omega
    · intro x hx
      rcases List.mem_cons.1 hx with h | h
      · subst h
        split at hle <;> split at hle <;> omega
      · exact hall x h
    · rcases hatt with h | ⟨x, hx, h⟩
      · have h3 : M = m0 ∨ M = toSizeT e.u ∨ M = toSizeT e.v := by
          split at h <;> (try split at h) <;> omega
        rcases h3 with h3 | h3
        · exact Or.inl h3
        · exact Or.inr ⟨e, List.mem_cons_self _ _, h3⟩
      · exact Or.inr ⟨x, List.mem_cons_of_mem _ hx, h⟩

/-- The unchecked insertion loop on a square matrix that holds every endpoint: each cell
ends with the weight of the last entry written to it. -/
theorem fillEdges_read (es : List Edge) (m : List (List Double)) (hsq : Graph.Square ⟨m⟩)
    (hin : ∀ e ∈ es, toSizeT e.u < m.length ∧ toSizeT e.v < m.length) :
    ∃ m', fillEdges m es = .ok m' ∧ Graph.Square ⟨m'⟩ ∧ m'.length = m.length ∧
      ∀ i j, readCell m' i j =
        match lastHit es i j with
        | some w => .ok w
        | none => readCell m i j := by
  induction es generalizing m with
  | nil => exact ⟨m, rfl, hsq, rfl, fun i j => rfl⟩
  | cons e es ih =>
    obtain ⟨hu, hv⟩ := hin e (List.mem_cons_self _ _)
    obtain ⟨m1, hput, hsq1, hlen1, hread1⟩ := putEdge_square (e := e) hsq hu hv
    obtain ⟨m', hfill, hsq', hlen', hread'⟩ := ih m1 hsq1
      (fun x hx => hlen1 ▸ hin x (List.mem_cons_of_mem _ hx))
    refine ⟨m', ?_, hsq', hlen'.trans hlen1, ?_⟩
    · simp only [fillEdges, hput]
      exact hfill
    · intro i j
      rw [hread']
      simp only [lastHit]
      cases lastHit es i j with
      | some w => rfl
      | none =>
        by_cases hh : e.Hits i j
        · have hh' : i = toSizeT e.u ∧ j = toSizeT e.v ∨ i = toSizeT e.v ∧ j = toSizeT e.u := hh
          simp only [hread1, if_pos hh, if_pos hh']
        · have hh' : ¬ (i = toSizeT e.u ∧ j = toSizeT e.v ∨
              i = toSizeT e.v ∧ j = toSizeT e.u) := hh
          simp only [hread1, if_neg hh, if_neg hh']

theorem toSizeT_lt (x : Int) : toSizeT x < 2 ^ 64 := by
  unfold toSizeT
  omega

theorem readCell_zeros {n i j : Nat} (hi : i < n) (hj : j < n) :
    readCell (List.replicate n (List.replicate n (0 : Double))) i j = .ok 0 := by
  rw [readCell_eq_ok]
  exact ⟨List.replicate n 0, List.getElem?_replicate_of_lt hi, List.getElem?_replicate_of_lt hj⟩

/-- The edge-list constructor on valid edges whose endpoints convert to indices for which
the matrix is allocated: the matrix has one more row than the largest index, and each
cell holds the weight of the last entry written to it, or zero. -/
theorem Graph_edges_ok (mem : Memory) (es : List Edge)
    (hval : ∀ e ∈ es, e.u ≠ e.v ∧ 0 < e.weight)
    (hsmall : ∀ e ∈ es, toSizeT e.u < mem.rows ∧ toSizeT e.v < mem.rows) :
    ∃ (g : Graph) (M : Nat), Graph.Graph_edges mem es = .ok g ∧ g.Square ∧ g.Sized ∧
      g.graph.length = M + 1 ∧ (∀ e ∈ es, toSizeT e.u ≤ M ∧ toSizeT e.v ≤ M) ∧
      (M = 0 ∨ ∃ e ∈ es, M = toSizeT e.u ∨ M = toSizeT e.v) ∧
      ∀ i j, i < M + 1 → j < M + 1 → readCell g.graph i j =
        match lastHit es i j with
        | some w => .ok w
        | none => .ok 0 := by
  obtain ⟨M, hM, -, hall, hatt⟩ := scanEdges_valid es hval 0
  have hrows : M + 1 ≤ mem.rows := by
    have := mem.one_le
    rcases hatt with h | ⟨e, he, h | h⟩
    · omega
    · have := (hsmall e he).1; omega
    · have := (hsmall e he).2; omega
  have hM31 : M + 1 < 2 ^ 31 := lt_of_le_of_lt hrows (memory_rows_lt mem)
  have hmod : (M + 1) % 2 ^ 64 = M + 1 := Nat.mod_eq_of_lt (by omega)
  have halloc : allocMatrix mem ((M + 1) % 2 ^ 64) =
      .ok (List.replicate (M + 1) (List.replicate (M + 1) 0)) := by
    rw [hmod]
    unfold allocMatrix
    rw [if_pos hrows]
  obtain ⟨hsq0, hlen0, -⟩ := allocMatrix_ok halloc
  rw [hmod] at hlen0
  obtain ⟨m', hfill, hsq', hlen', hread⟩ := fillEdges_read es _ hsq0 (by
    intro e he
    rw [hlen0]
    have := hall e he
    omega)
  refine ⟨⟨m'⟩, M, ?_, hsq', ?_, hlen'.trans hlen0, hall, hatt, ?_⟩
  · simp only [Graph.Graph_edges, hM, halloc, hfill]
  · show m'.length < 2 ^ 31
    rw [hlen', hlen0]
    exact hM31
  · intro i j hi hj
    show readCell m' i j = _
    rw [hread, readCell_zeros hi hj]

theorem lastHit_eq_listed (es : List Edge) (hint : ∀ e ∈ es, e.IsInt) {a b : Int}
    (ha : IsInt a) (hb : IsInt b) : lastHit es (toSizeT a) (toSizeT b) = listedWeight es a b := by
  induction es with
  | nil => rfl
  | cons e es ih =>
    have he := hint e (List.mem_cons_self _ _)
    have hiff : e.Hits (toSizeT a) (toSizeT b) ↔ e.Joins a b := by
      unfold Edge.Hits Edge.Joins
      constructor
      · rintro (⟨h1, h2⟩ | ⟨h1, h2⟩)
        · exact Or.inl ⟨(toSizeT_inj ha he.2 h1).symm, (toSizeT_inj hb he.1 h2).symm⟩
        · exact Or.inr ⟨(toSizeT_inj hb he.2 h2).symm, (toSizeT_inj ha he.1 h1).symm⟩
      · rintro (⟨h1, h2⟩ | ⟨h1, h2⟩)
        · exact Or.inl ⟨by rw [h1], by rw [h2]⟩
        · exact Or.inr ⟨by rw [h2], by rw [h1]⟩
    simp only [lastHit, listedWeight, ih (fun x hx => hint x (List.mem_cons_of_mem _ hx))]
    cases listedWeight es a b with
    | some w => rfl
    | none =>
      by_cases hj : e.Joins a b
      · simp only [if_pos hj, if_pos (hiff.2 hj)]
      · simp only [if_neg hj, if_neg (fun h => hj (hiff.1 h))]

theorem listedWeight_mem (es : List Edge) {a b : Int} {w : Double}
    (h : listedWeight es a b = some w) : ∃ e ∈ es, e.Joins a b ∧ e.weight = w := by
  induction es with
  | nil => cases h
  | cons e es ih =>
    simp only [listedWeight] at h
    cases hl : listedWeight es a b with
    | some w' =>
      rw [hl] at h
      simp only [Option.some.injEq] at h
      subst h
      obtain ⟨x, hx, hj, hw⟩ := ih hl
      exact ⟨x, List.mem_cons_of_mem _ hx, hj, hw⟩
    | none =>
      rw [hl] at h
      by_cases hj : e.Joins a b
      · simp only [if_pos hj, Option.some.injEq] at h
        exact ⟨e, List.mem_cons_self _ _, hj, h⟩
      · simp only [if_neg hj] at h
        cases h

theorem listedWeight_none (es : List Edge) {a b : Int} :
    listedWeight es a b = none ↔ ∀ e ∈ es, ¬ e.Joins a b := by
  induction es with
  | nil => simp [listedWeight]
  | cons e es ih =>
    simp only [listedWeight, List.mem_cons, forall_eq_or_imp]
    cases hl : listedWeight es a b with
    | some w =>
      have : ¬ ∀ x ∈ es, ¬ x.Joins a b := fun h => by
        rw [ih.2 h] at hl
        cases hl
      simp [this]
    | none =>
      have := ih.1 hl
      by_cases hj : e.Joins a b
      · simp [hj]
      · simpa [hj] using this

/-- C11: for an edge list whose triples all pass the self-loop and weight checks and of
which one has a negative endpoint, the edge-list constructor does not throw the graph
exception: the negative endpoint converts to a huge `size_t`, and either the allocation
of `maxVert + 1` rows fails (`std::length_error` or `std::bad_alloc`) or, for the
endpoint `-1`, `maxVert + 1` wraps to `0` and the insertion loop writes out of bounds. -/
theorem Graph_edges_negative (mem : Memory) (es : List Edge) (hval : ∀ e ∈ es, e.Valid)
    (hneg : ∃ e ∈ es, e.u < 0 ∨ e.v < 0) :
    Graph.Graph_edges mem es = .allocFailure ∨ Graph.Graph_edges mem es = .undefined := by
  obtain ⟨M, hM, -, hall, hatt⟩ := scanEdges_valid es (fun e he => (hval e he).2) 0
  obtain ⟨e0, he0, hneg0⟩ := hneg
  have hbig : 2 ^ 64 - 2 ^ 31 ≤ M := by
    have h1 := hall e0 he0
    have h2 := (hval e0 he0).1
    unfold Edge.IsInt IsInt at h2
    unfold toSizeT at h1
    omega
  have hlt : M < 2 ^ 64 := by
    rcases hatt with h | ⟨e, -, h | h⟩
    · omega
    · rw [h]; exact toSizeT_lt _
    · rw [h]; exact toSizeT_lt _
  by_cases hwrap : M + 1 = 2 ^ 64
  · right
    have halloc : allocMatrix mem ((M + 1) % 2 ^ 64) = .ok [] := by
      rw [hwrap]
      show allocMatrix mem 0 = .ok []
      unfold allocMatrix
      rw [if_pos (Nat.zero_le _)]
      rfl
    cases es with
    | nil => exact absurd he0 (List.not_mem_nil _)
    | cons e rest =>
      simp only [Graph.Graph_edges, hM, halloc, fillEdges, putEdge, writeCell,
        List.getElem?_nil]
  · left
    have hmod : (M + 1) % 2 ^ 64 = M + 1 := Nat.mod_eq_of_lt (by omega)
    have halloc : allocMatrix mem ((M + 1) % 2 ^ 64) = .allocFailure := by
      rw [hmod]
      unfold allocMatrix
      have := memory_rows_lt mem
      rw [if_neg (by omega)]
    simp only [Graph.Graph_edges, hM, halloc]

/-- Witness for C11: the list with the single triple `Edge{-1, 0, 1.0}`. -/
theorem Graph_edges_negative_witness :
    (Graph.Graph_edges smallMemory [⟨-1, 0, 1⟩] = .allocFailure ∨
      Graph.Graph_edges smallMemory [⟨-1, 0, 1⟩] = .undefined) ∧
    Graph.Graph_edges smallMemory [⟨-1, 0, 1⟩] = .undefined ∧
    Graph.Graph_edges smallMemory [⟨-2, 0, 1⟩] = .allocFailure :=
  ⟨Graph_edges_negative smallMemory [⟨-1, 0, 1⟩] (by decide!)
      ⟨⟨-1, 0, 1⟩, by simp, by decide⟩,
    by decide!, by decide!⟩

theorem isInt_of_inRange {g : Graph} (hs : g.Sized) {a : Int} (ha : g.InRange a) : IsInt a := by
  unfold Graph.InRange at ha
  unfold Graph.Sized at hs
  unfold IsInt
  omega

theorem lookup_of_read {g : Graph} (hsq : g.Square) (hs : g.Sized) {a b : Int}
    (hra : g.InRange a) (hrb : g.InRange b) {w : Double}
    (hread : readCell g.graph (toSizeT a) (toSizeT b) = .ok w) :
    g.weights a b = w ∧ g.At a b = (if w = 0 then .graphException else .ok w) ∧
      g.Connected a b = (if w = 0 then .ok false else .ok true) := by
  have ha := isInt_of_inRange hs hra
  have hb := isInt_of_inRange hs hrb
  have hw := readCell_weights hsq hs ha hb hra hrb
  rw [hread] at hw
  simp only [Result.ok.injEq] at hw
  exact ⟨hw.symm, At_of_readCell ((inRange_iff hs ha).1 hra) ((inRange_iff hs hb).1 hrb) hread,
    Connected_of_readCell ((inRange_iff hs ha).1 hra) ((inRange_iff hs hb).1 hrb) hread⟩

/-- C12, as stated, fails: the list with the single edge `Edge{0, 2147483647, 1.0}` is a
non-empty list of valid edges with non-negative endpoints, but a matrix of `2^31` rows and
columns needs `2^65` bytes, the allocation fails on every machine, and the constructor
ends with the exception of the allocation instead of a graph of `2^31` vertices. -/
theorem Graph_edges_lookup_fails_intMax :
    (∀ e ∈ [Edge.mk 0 2147483647 1], e.Valid ∧ 0 ≤ e.u ∧ 0 ≤ e.v) ∧
    scanEdges [Edge.mk 0 2147483647 1] 0 = some 2147483647 ∧
    ∀ mem : Memory, Graph.Graph_edges mem [Edge.mk 0 2147483647 1] = .allocFailure := by
  have hscan : scanEdges [Edge.mk 0 2147483647 1] 0 = some 2147483647 := by decide!
  refine ⟨by decide!, hscan, fun mem => ?_⟩
  have hrows := memory_rows_lt mem
  have halloc : allocMatrix mem ((2147483647 + 1) % 2 ^ 64) = .allocFailure := by
    unfold allocMatrix
    rw [if_neg (by omega)]
  simp only [Graph.Graph_edges, hscan, halloc]

/-- C12, amended: for every non-empty list of valid edges with non-negative endpoints that
are all below the largest number of rows for which the machine allocates a matrix, the
edge-list constructor returns a graph with exactly `M + 1` vertices, where `M` is the
largest endpoint of the list, and on this graph `At(a, b)` returns the weight listed for
the pair `{a, b}` (that of its last entry) and throws for every in-range pair that is not
listed. -/
theorem Graph_edges_lookup (mem : Memory) (es : List Edge) (hne : es ≠ [])
    (hval : ∀ e ∈ es, e.Valid)
    (hrange : ∀ e ∈ es,
      0 ≤ e.u ∧ 0 ≤ e.v ∧ e.u < (mem.rows : Int) ∧ e.v < (mem.rows : Int)) :
    ∃ (g : Graph) (M : Int), Graph.Graph_edges mem es = .ok g ∧
      (g.graph.length : Int) = M + 1 ∧ (∀ e ∈ es, e.u ≤ M ∧ e.v ≤ M) ∧
      (∃ e ∈ es, e.u = M ∨ e.v = M) ∧
      ∀ a b, g.InRange a → g.InRange b →
        g.At a b = match listedWeight es a b with
          | some w => .ok w
          | none => .graphException := by
  have hconv : ∀ e ∈ es, toSizeT e.u = e.u.toNat ∧ toSizeT e.v = e.v.toNat := fun e he =>
    ⟨toSizeT_eq_toNat (hval e he).1.2 (hrange e he).1,
      toSizeT_eq_toNat (hval e he).1.1 (hrange e he).2.1⟩
  obtain ⟨g, M, hg, hsq, hs, hlen, hall, hatt, hread⟩ := Graph_edges_ok mem es
    (fun e he => (hval e he).2) (fun e he => by
      have := hconv e he
      have := hrange e he
      omega)
  refine ⟨g, (M : Int), hg, by rw [hlen]; simp, ?_, ?_, ?_⟩
  · intro e he
    have := hconv e he
    have := hall e he
    have := hrange e he
    omega
  · rcases hatt with h | ⟨e, he, h⟩
    · obtain ⟨e, he⟩ := List.exists_mem_of_ne_nil es hne
      exfalso
      have := hconv e he
      have := hall e he
      have := hrange e he
      have := (hval e he).2.1
      omega
    · refine ⟨e, he, ?_⟩
      have := hconv e he
      have := hrange e he
      omega
  · intro a b hra hrb
    have ha := isInt_of_inRange hs hra
    have hb := isInt_of_inRange hs hrb
    have hta : toSizeT a < M + 1 := hlen ▸ (inRange_iff hs ha).1 hra
    have htb : toSizeT b < M + 1 := hlen ▸ (inRange_iff hs hb).1 hrb
    have hr := hread _ _ hta htb
    rw [lastHit_eq_listed es (fun e he => (hval e he).1) ha hb] at hr
    cases hl : listedWeight es a b with
    | some w =>
      rw [hl] at hr
      obtain ⟨e, he, -, hw⟩ := listedWeight_mem es hl
      have hpos : w ≠ 0 := by
        rw [← hw]; exact (double_ne_of_lt (hval e he).2.2).symm
      rw [(lookup_of_read hsq hs hra hrb hr).2.1, if_neg hpos]
    | none =>
      rw [hl] at hr
      rw [(lookup_of_read hsq hs hra hrb hr).2.1, if_pos rfl]

/-- Witness for C12 on the edge list of `main`: `11` vertices, `At(5, 10) = 2`, and
`At(5, 4)` throws. -/
theorem Graph_edges_lookup_witness :
    (∃ (g : Graph) (M : Int), Graph.Graph_edges smallMemory mainEdges = .ok g ∧
      (g.graph.length : Int) = M + 1 ∧ (∀ e ∈ mainEdges, e.u ≤ M ∧ e.v ≤ M) ∧
      (∃ e ∈ mainEdges, e.u = M ∨ e.v = M) ∧
      ∀ a b, g.InRange a → g.InRange b →
        g.At a b = match listedWeight mainEdges a b with
          | some w => .ok w
          | none => .graphException) ∧
    (Graph.Graph_edges smallMemory mainEdges).toOption.map
        (fun g => (g.graph.length, g.At 5 10, g.At 5 4)) =
      some (11, .ok 2, .graphException) :=
  ⟨Graph_edges_lookup smallMemory mainEdges (by decide) (by decide!) (by decide!),
    by decide!⟩

/-- C20: the edge-list constructor on the empty list returns a graph with exactly one
vertex and no edge: vertex `0` is in range and every other index is not, the matrix is
the single entry `0`, `Connected(0, 0)` is false and `Path(0, 0)` returns `[0]`. -/
theorem Graph_edges_empty (mem : Memory) :
    Graph.Graph_edges mem [] = .ok (Graph.mk [[0]]) ∧ (Graph.mk [[0]]).graph.length = 1 ∧
    (∀ a : Int, (Graph.mk [[0]]).InRange a ↔ a = 0) ∧
    (Graph.mk [[0]]).Connected 0 0 = .ok false ∧
    (Graph.mk [[0]]).At 0 0 = .graphException ∧
    (Graph.mk [[0]]).Path 0 0 = .ok (some [0]) := by
  refine ⟨?_, rfl, ?_, by decide!, by decide!, by decide!⟩
  · have halloc : allocMatrix mem ((0 + 1) % 2 ^ 64) = .ok [[0]] := by
      show allocMatrix mem 1 = .ok [[0]]
      unfold allocMatrix
      rw [if_pos mem.one_le]
      rfl
    simp only [Graph.Graph_edges, scanEdges, halloc, fillEdges]
  · intro a
    unfold Graph.InRange
    simp only [List.length_singleton, Nat.cast_one]
    omega

/-! ## Batches of edges -/

theorem listedWeight_last (pre post : List Edge) (e : Edge) {a b : Int}
    (hpost : ∀ x ∈ post, ¬ x.Joins a b) (he : e.Joins a b) :
    listedWeight (pre ++ e :: post) a b = some e.weight := by
  induction pre with
  | nil =>
    simp only [List.nil_append, listedWeight, (listedWeight_none post).2 hpost, if_pos he]
  | cons x pre ih =>
    show (match listedWeight (pre ++ e :: post) a b with
      | some w => some w
      | none => if x.Joins a b then some x.weight else none) = some e.weight
    rw [ih]

/-- On a square matrix that holds every endpoint, `AddEdges` on valid edges, a caller's
sequence of `AddEdge` calls and the unchecked insertion loop of the constructor all
return the same matrix. -/
theorem AddEdges_ok (es : List Edge) (g : Graph) (hsq : g.Square)
    (hin : ∀ e ∈ es, e.u ≠ e.v ∧ 0 < e.weight ∧
      toSizeT e.u < g.graph.length ∧ toSizeT e.v < g.graph.length) :
    ∃ m', fillEdges g.graph es = .ok m' ∧ g.AddEdges es = .done ⟨m'⟩ ∧
      g.addEach es = .done ⟨m'⟩ := by
  induction es generalizing g with
  | nil => exact ⟨g.graph, rfl, rfl, rfl⟩
  | cons e es ih =>
    obtain ⟨hne, hw, hu, hv⟩ := hin e (List.mem_cons_self _ _)
    obtain ⟨m1, hput, hsq1, hlen1, -⟩ := putEdge_square (e := e) hsq hu hv
    obtain ⟨m', hfill, hadd, heach⟩ := ih ⟨m1⟩ hsq1 (fun x hx => by
      have := hin x (List.mem_cons_of_mem _ hx)
      exact ⟨this.1, this.2.1, hlen1 ▸ this.2.2.1, hlen1 ▸ this.2.2.2⟩)
    have hc1 : ¬ (e.u = e.v ∨ e.weight ≤ 0) := by
      rintro (h | h)
      · exact hne h
      · exact double_not_le_of_lt hw h
    have hc2 : ¬ (e.u = e.v ∨ e.weight ≤ 0 ∨ toSizeT e.u ≥ g.graph.length ∨
        toSizeT e.v ≥ g.graph.length) := by
      rintro (h | h | h | h)
      · exact hne h
      · exact double_not_le_of_lt hw h
      · omega
      · omega
    refine ⟨m', ?_, ?_, ?_⟩
    · simp only [fillEdges, hput]; exact hfill
    · simp only [Graph.AddEdges, if_neg hc2, hput]; exact hadd
    · simp only [Graph.addEach, Graph.AddEdge, if_neg hc1, hput]; exact heach

theorem valid_inRange_bounds {g : Graph} (hs : g.Sized) {es : List Edge}
    (hval : ∀ e ∈ es, e.Valid) (hr : ∀ e ∈ es, g.InRange e.u ∧ g.InRange e.v) :
    ∀ e ∈ es, e.u ≠ e.v ∧ 0 < e.weight ∧
      toSizeT e.u < g.graph.length ∧ toSizeT e.v < g.graph.length := fun e he =>
  ⟨(hval e he).2.1, (hval e he).2.2, (inRange_iff hs (hval e he).1.2).1 (hr e he).1,
    (inRange_iff hs (hval e he).1.1).1 (hr e he).2⟩

/-- C16: on every graph and for every list of valid edges with in-range endpoints,
`AddEdges` returns and leaves the same graph as a call of `AddEdge` on each element of
the list in order. -/
theorem AddEdges_eq_addEach (g : Graph) (hsq : g.Square) (hs : g.Sized) (es : List Edge)
    (hval : ∀ e ∈ es, e.Valid) (hr : ∀ e ∈ es, g.InRange e.u ∧ g.InRange e.v) :
    ∃ g', g.AddEdges es = .done g' ∧ g.addEach es = .done g' := by
  obtain ⟨m', -, hadd, heach⟩ := AddEdges_ok es g hsq (valid_inRange_bounds hs hval hr)
  exact ⟨⟨m'⟩, hadd, heach⟩

/-- Witness for C16: two edges, the second over the pair of the first. -/
theorem AddEdges_eq_addEach_witness :
    ∃ g', (Graph.mk [[0, 5], [5, 0]]).AddEdges [⟨1, 0, 7⟩, ⟨0, 1, 2⟩] = .done g' ∧
      (Graph.mk [[0, 5], [5, 0]]).addEach [⟨1, 0, 7⟩, ⟨0, 1, 2⟩] = .done g' :=
  AddEdges_eq_addEach (Graph.mk [[0, 5], [5, 0]]) (by decide) (by decide)
    [⟨1, 0, 7⟩, ⟨0, 1, 2⟩] (by decide!) (by decide)

/-- C14: when the first invalid edge of a batch (self-loop, weight `<= 0`, or an endpoint
out of range) is at index `k`, `AddEdges` throws the graph exception and leaves the graph
that the insertion of the edges at the indices `0..k-1` in order gives: they stay applied
and no later edge is applied. -/
theorem AddEdges_keeps_earlier (g : Graph) (hsq : g.Square) (hs : g.Sized) (pre post : List Edge)
    (e : Edge) (hval : ∀ x ∈ pre, x.Valid) (hr : ∀ x ∈ pre, g.InRange x.u ∧ g.InRange x.v)
    (he : e.IsInt)
    (hbad : e.u = e.v ∨ e.weight ≤ 0 ∨ ¬ g.InRange e.u ∨ ¬ g.InRange e.v) :
    ∃ g1, g.addEach pre = .done g1 ∧ g.AddEdges pre = .done g1 ∧
      g.AddEdges (pre ++ e :: post) = .thrown g1 := by
  obtain ⟨m', hfill, hadd, heach⟩ := AddEdges_ok pre g hsq (valid_inRange_bounds hs hval hr)
  have hlen : m'.length = g.graph.length :=
    (fillEdges_ok_square pre hsq hfill).2
  refine ⟨⟨m'⟩, heach, hadd, ?_⟩
  rw [AddEdges_append, hadd]
  simp only [Graph.AddEdges]
  rw [if_pos]
  rw [inRange_iff hs he.2, inRange_iff hs he.1] at hbad
  rcases hbad with h | h | h | h
  · exact Or.inl h
  · exact Or.inr (Or.inl h)
  · exact Or.inr (Or.inr (Or.inl (by rw [hlen]; omega)))
  · exact Or.inr (Or.inr (Or.inr (by rw [hlen]; omega)))

/-- Witness for C14: the batch `[(0,1,3), (10,10,1)]` on a graph of five vertices throws
at the second entry and leaves the edge `(0, 1)` with the weight `3`. -/
theorem AddEdges_keeps_earlier_witness :
    (∃ g1, (Graph.mk (List.replicate 5 (List.replicate 5 0))).addEach [⟨1, 0, 3⟩] = .done g1 ∧
      (Graph.mk (List.replicate 5 (List.replicate 5 0))).AddEdges [⟨1, 0, 3⟩] = .done g1 ∧
      (Graph.mk (List.replicate 5 (List.replicate 5 0))).AddEdges
        ([⟨1, 0, 3⟩] ++ ⟨10, 10, 1⟩ :: []) = .thrown g1) ∧
    (Graph.mk (List.replicate 5 (List.replicate 5 0))).AddEdges [⟨1, 0, 3⟩, ⟨10, 10, 1⟩] =
      .thrown (Graph.mk [[0, 3, 0, 0, 0], [3, 0, 0, 0, 0], [0, 0, 0, 0, 0], [0, 0, 0, 0, 0],
        [0, 0, 0, 0, 0]]) :=
  ⟨AddEdges_keeps_earlier (Graph.mk (List.replicate 5 (List.replicate 5 0))) (by decide) (by decide)
      [⟨1, 0, 3⟩] [] ⟨10, 10, 1⟩ (by decide!) (by decide) (by decide) (by decide),
    by decide!⟩

/-- C13: in a list of valid edges the weight of the last entry for a pair `{a, b}` is the
weight that the graph stores for `(a, b)` and for `(b, a)`, and that the queries return,
both after the edge-list constructor (endpoints non-negative and below the number of rows
for which the machine allocates the matrix) and after `AddEdges` with the list on a graph
that holds every endpoint. -/
theorem last_entry_wins (pre post : List Edge) (e : Edge)
    (hval : ∀ x ∈ pre ++ e :: post, x.Valid) (hlast : ∀ x ∈ post, ¬ x.SamePair e) :
    (∀ mem : Memory,
      (∀ x ∈ pre ++ e :: post,
        0 ≤ x.u ∧ 0 ≤ x.v ∧ x.u < (mem.rows : Int) ∧ x.v < (mem.rows : Int)) →
      ∃ g, Graph.Graph_edges mem (pre ++ e :: post) = .ok g ∧
        g.weights e.u e.v = e.weight ∧ g.weights e.v e.u = e.weight ∧
        g.HasEdge e.u e.v e.weight) ∧
    (∀ g0 : Graph, g0.Square → g0.Sized →
      (∀ x ∈ pre ++ e :: post, g0.InRange x.u ∧ g0.InRange x.v) →
      ∃ g', g0.AddEdges (pre ++ e :: post) = .done g' ∧ g'.weights e.u e.v = e.weight ∧
        g'.weights e.v e.u = e.weight ∧ g'.HasEdge e.u e.v e.weight) := by
  have hmem : e ∈ pre ++ e :: post := List.mem_append_right _ (List.mem_cons_self _ _)
  have he := hval e hmem
  have hint : ∀ x ∈ pre ++ e :: post, x.IsInt := fun x hx => (hval x hx).1
  have hw0 : e.weight ≠ 0 := (double_ne_of_lt he.2.2).symm
  -- the list gives the weight of `e` for the pair, in both orders
  have huv : listedWeight (pre ++ e :: post) e.u e.v = some e.weight :=
    listedWeight_last pre post e hlast (Or.inl ⟨rfl, rfl⟩)
  have hvu : listedWeight (pre ++ e :: post) e.v e.u = some e.weight :=
    listedWeight_last pre post e (fun x hx h => hlast x hx (by
      rcases h with ⟨h1, h2⟩ | ⟨h1, h2⟩
      · exact Or.inr ⟨h1, h2⟩
      · exact Or.inl ⟨h1, h2⟩)) (Or.inr ⟨rfl, rfl⟩)
  have hhit_uv : lastHit (pre ++ e :: post) (toSizeT e.u) (toSizeT e.v) = some e.weight := by
    rw [lastHit_eq_listed _ hint he.1.2 he.1.1, huv]
  have hhit_vu : lastHit (pre ++ e :: post) (toSizeT e.v) (toSizeT e.u) = some e.weight := by
    rw [lastHit_eq_listed _ hint he.1.1 he.1.2, hvu]
  -- what the queries return when both cells hold the weight
  have finish : ∀ g : Graph, g.Square → g.Sized → g.InRange e.u → g.InRange e.v →
      readCell g.graph (toSizeT e.u) (toSizeT e.v) = .ok e.weight →
      readCell g.graph (toSizeT e.v) (toSizeT e.u) = .ok e.weight →
      g.weights e.u e.v = e.weight ∧ g.weights e.v e.u = e.weight ∧
        g.HasEdge e.u e.v e.weight := by
    intro g hsq hs hru hrv h1 h2
    exact ⟨(lookup_of_read hsq hs hru hrv h1).1, (lookup_of_read hsq hs hrv hru h2).1,
      hasEdge_of_readCell hw0 ((inRange_iff hs he.1.2).1 hru) ((inRange_iff hs he.1.1).1 hrv)
        h1 h2⟩
  constructor
  · intro mem hrange
    have hconv : ∀ x ∈ pre ++ e :: post, toSizeT x.u = x.u.toNat ∧ toSizeT x.v = x.v.toNat :=
      fun x hx => ⟨toSizeT_eq_toNat (hval x hx).1.2 (hrange x hx).1,
        toSizeT_eq_toNat (hval x hx).1.1 (hrange x hx).2.1⟩
    obtain ⟨g, M, hg, hsq, hs, hlen, hall, -, hread⟩ := Graph_edges_ok mem (pre ++ e :: post)
      (fun x hx => (hval x hx).2) (fun x hx => by
        have := hconv x hx
        have := hrange x hx
        omega)
    have hu : toSizeT e.u < M + 1 := by have := (hall e hmem).1; omega
    have hv : toSizeT e.v < M + 1 := by have := (hall e hmem).2; omega
    have hru : g.InRange e.u := (inRange_iff hs he.1.2).2 (hlen ▸ hu)
    have hrv : g.InRange e.v := (inRange_iff hs he.1.1).2 (hlen ▸ hv)
    have h1 := hread _ _ hu hv
    have h2 := hread _ _ hv hu
    rw [hhit_uv] at h1
    rw [hhit_vu] at h2
    exact ⟨g, hg, finish g hsq hs hru hrv h1 h2⟩
  · intro g0 hsq hs hr
    have hb := valid_inRange_bounds hs hval hr
    obtain ⟨m', hfill, hadd, -⟩ := AddEdges_ok _ g0 hsq hb
    obtain ⟨m2, hfill2, hsq2, hlen2, hread⟩ := fillEdges_read (pre ++ e :: post) g0.graph hsq
      (fun x hx => (hb x hx).2.2)
    rw [hfill] at hfill2
    simp only [Result.ok.injEq] at hfill2
    subst hfill2
    have hs2 : Graph.Sized ⟨m'⟩ := by
      show m'.length < 2 ^ 31
      rw [hlen2]; exact hs
    have hru : Graph.InRange ⟨m'⟩ e.u := by
      have := (hr e hmem).1
      unfold Graph.InRange at this ⊢
      rw [show (Graph.mk m').graph.length = g0.graph.length from hlen2]
      exact this
    have hrv : Graph.InRange ⟨m'⟩ e.v := by
      have := (hr e hmem).2
      unfold Graph.InRange at this ⊢
      rw [show (Graph.mk m').graph.length = g0.graph.length from hlen2]
      exact this
    have h1 := hread (toSizeT e.u) (toSizeT e.v)
    have h2 := hread (toSizeT e.v) (toSizeT e.u)
    rw [hhit_uv] at h1
    rw [hhit_vu] at h2
    exact ⟨⟨m'⟩, hadd, finish ⟨m'⟩ hsq2 hs2 hru hrv h1 h2⟩

/-- Witness for C13: the pair `{0, 1}` is listed with the weights `5`, then `7` in the
other orientation; the edge `(1, 2)` comes in between. -/
theorem last_entry_wins_witness :
    ((∀ mem : Memory,
      (∀ x ∈ [(⟨1, 0, 5⟩ : Edge), ⟨2, 1, 3⟩] ++ ⟨0, 1, 7⟩ :: [],
        0 ≤ x.u ∧ 0 ≤ x.v ∧ x.u < (mem.rows : Int) ∧ x.v < (mem.rows : Int)) →
      ∃ g, Graph.Graph_edges mem ([⟨1, 0, 5⟩, ⟨2, 1, 3⟩] ++ ⟨0, 1, 7⟩ :: []) = .ok g ∧
        g.weights 1 0 = 7 ∧ g.weights 0 1 = 7 ∧ g.HasEdge 1 0 7) ∧
    (∀ g0 : Graph, g0.Square → g0.Sized →
      (∀ x ∈ [(⟨1, 0, 5⟩ : Edge), ⟨2, 1, 3⟩] ++ ⟨0, 1, 7⟩ :: [],
        g0.InRange x.u ∧ g0.InRange x.v) →
      ∃ g', g0.AddEdges ([⟨1, 0, 5⟩, ⟨2, 1, 3⟩] ++ ⟨0, 1, 7⟩ :: []) = .done g' ∧
        g'.weights 1 0 = 7 ∧ g'.weights 0 1 = 7 ∧ g'.HasEdge 1 0 7)) ∧
    (Graph.Graph_edges smallMemory [⟨1, 0, 5⟩, ⟨2, 1, 3⟩, ⟨0, 1, 7⟩]).toOption.map
        (fun g => (g.At 0 1, g.At 1 0)) = some (.ok 7, .ok 7) ∧
    (Graph.mk (List.replicate 3 (List.replicate 3 0))).AddEdges
        [⟨1, 0, 5⟩, ⟨2, 1, 3⟩, ⟨0, 1, 7⟩] = .done (Graph.mk [[0, 7, 0], [7, 0, 3], [0, 3, 0]]) :=
  ⟨last_entry_wins [⟨1, 0, 5⟩, ⟨2, 1, 3⟩] [] ⟨0, 1, 7⟩ (by decide!) (by decide),
    by decide!, by decide!⟩

/-- C19: on every graph and for every valid edge `(a, b, w)` with in-range endpoints,
`AddEdge` returns, keeps the vertex count, and for every in-range pair `(i, j)` other than
`(a, b)` and `(b, a)` the stored weight, `At(i, j)` and `Connected(i, j)` are the same
before and after the call. -/
theorem AddEdge_frame (g : Graph) (hsq : g.Square) (hs : g.Sized) (e : Edge) (hval : e.Valid)
    (hru : g.InRange e.u) (hrv : g.InRange e.v) :
    ∃ g', g.AddEdge e = .done g' ∧ g'.graph.length = g.graph.length ∧
      ∀ i j, g.InRange i → g.InRange j → ¬ ((i = e.u ∧ j = e.v) ∨ (i = e.v ∧ j = e.u)) →
        g'.weights i j = g.weights i j ∧ g'.At i j = g.At i j ∧
          g'.Connected i j = g.Connected i j := by
  obtain ⟨hint, hne, hw⟩ := hval
  have hu : toSizeT e.u < g.graph.length := (inRange_iff hs hint.2).1 hru
  have hv : toSizeT e.v < g.graph.length := (inRange_iff hs hint.1).1 hrv
  obtain ⟨m', hput, hsq', hlen, hread⟩ := putEdge_square (e := e) hsq hu hv
  refine ⟨⟨m'⟩, ?_, hlen, ?_⟩
  · unfold Graph.AddEdge
    rw [if_neg (by rintro (h | h); exacts [hne h, double_not_le_of_lt hw h]), hput]
  · intro i j hri hrj hij
    have hi := isInt_of_inRange hs hri
    have hj := isInt_of_inRange hs hrj
    have hs' : Graph.Sized ⟨m'⟩ := by
      show m'.length < 2 ^ 31
      rw [hlen]; exact hs
    have hri' : Graph.InRange ⟨m'⟩ i := by
      unfold Graph.InRange at hri ⊢
      rw [show (Graph.mk m').graph.length = g.graph.length from hlen]
      exact hri
    have hrj' : Graph.InRange ⟨m'⟩ j := by
      unfold Graph.InRange at hrj ⊢
      rw [show (Graph.mk m').graph.length = g.graph.length from hlen]
      exact hrj
    have hmiss : ¬ ((toSizeT i = toSizeT e.u ∧ toSizeT j = toSizeT e.v) ∨
        (toSizeT i = toSizeT e.v ∧ toSizeT j = toSizeT e.u)) := by
      rintro (⟨h1, h2⟩ | ⟨h1, h2⟩)
      · exact hij (Or.inl ⟨toSizeT_inj hi hint.2 h1, toSizeT_inj hj hint.1 h2⟩)
      · exact hij (Or.inr ⟨toSizeT_inj hi hint.1 h1, toSizeT_inj hj hint.2 h2⟩)
    have hold := readCell_weights hsq hs hi hj hri hrj
    have hnew : readCell m' (toSizeT i) (toSizeT j) = .ok (g.weights i j) := by
      rw [hread, if_neg hmiss]
      exact hold
    obtain ⟨h1, h2, h3⟩ := lookup_of_read hsq' hs' hri' hrj' hnew
    obtain ⟨-, h4, h5⟩ := lookup_of_read hsq hs hri hrj hold
    exact ⟨h1, h2.trans h4.symm, h3.trans h5.symm⟩

/-- Witness for C19: the edge `(0, 1)` is added to the scenario graph. -/
theorem AddEdge_frame_witness :
    ∃ g', scenarioGraph.AddEdge ⟨1, 0, 7⟩ = .done g' ∧
      g'.graph.length = scenarioGraph.graph.length ∧
      ∀ i j, scenarioGraph.InRange i → scenarioGraph.InRange j →
        ¬ ((i = 0 ∧ j = 1) ∨ (i = 1 ∧ j = 0)) →
        g'.weights i j = scenarioGraph.weights i j ∧ g'.At i j = scenarioGraph.At i j ∧
          g'.Connected i j = scenarioGraph.Connected i j :=
  AddEdge_frame scenarioGraph (by decide) (by decide) ⟨1, 0, 7⟩ (by decide!) (by decide)
    (by decide)

/-! ## Well-formedness of the graphs a program can hold

The insertions test the weight with `weight <= 0`. A weight that is a positive number or
positive infinity passes the test and keeps the matrix well-formed; NaN passes the test as
well, since every comparison with NaN is false, and is stored. -/

theorem cell_nonneg {m : List (List Double)} (hnn : ∀ row ∈ m, ∀ w ∈ row, (0 : Double) ≤ w)
    (i j : Nat) : 0 ≤ cell m i j := by
  unfold cell
  by_cases hi : i < m.length
  · have hrow : m[i]? = some m[i] := List.getElem?_eq_getElem hi
    rw [getD_of_getElem? [] hrow]
    by_cases hj : j < (m[i]).length
    · have hw : (m[i])[j]? = some (m[i])[j] := List.getElem?_eq_getElem hj
      rw [getD_of_getElem? 0 hw]
      exact hnn _ (List.getElem?_mem hrow) _ (List.getElem?_mem hw)
    · have : (m[i])[j]? = none := List.getElem?_eq_none (by omega)
      have hz : (m[i]).getD j (0 : Double) = 0 := by simp [List.getD, this]
      rw [hz]
      decide!
  · have : m[i]? = none := List.getElem?_eq_none (by omega)
    have hz : ((m.getD i []).getD j (0 : Double)) = 0 := by simp [List.getD, this]
    rw [hz]
    decide!

theorem wellFormed_of_cells {m : List (List Double)} (hsq : Graph.Square ⟨m⟩)
    (hs : m.length < 2 ^ 31) (h : SymNonneg m) : Graph.WellFormed ⟨m⟩ := by
  refine ⟨hsq, hs, fun i hi j hj => (h i hi j hj).1, fun i hi => (h i hi i hi).2.1, ?_⟩
  intro row hrow w hw
  obtain ⟨i, hi, rfl⟩ := List.getElem_of_mem hrow
  obtain ⟨j, hj, rfl⟩ := List.getElem_of_mem hw
  have hrowi : m[i]? = some m[i] := List.getElem?_eq_getElem hi
  have hlen : (m[i]).length = m.length := square_row (g := ⟨m⟩) hsq hrowi
  have hcell : cell m i j = (m[i])[j] := by
    unfold cell
    rw [getD_of_getElem? [] hrowi, getD_of_getElem? 0 (List.getElem?_eq_getElem hj)]
  rw [← hcell]
  exact (h i hi j (hlen ▸ hj)).2.2

theorem symNonneg_of_wellFormed {g : Graph} (h : g.WellFormed) : SymNonneg g.graph :=
  fun i hi j hj => ⟨h.2.2.1 i hi j hj, h.2.2.2.1 i hi, cell_nonneg h.2.2.2.2 i j⟩

theorem symNonneg_zeros (n : Nat) :
    SymNonneg (List.replicate n (List.replicate n (0 : Double))) := by
  have hz : ∀ i j, cell (List.replicate n (List.replicate n (0 : Double))) i j = 0 := by
    intro i j
    unfold cell
    rw [getD_replicate]
    split
    · rw [getD_replicate]; split <;> rfl
    · rfl
  intro i _ j _
  rw [hz, hz, hz]
  exact ⟨rfl, rfl, by decide!⟩

/-- The two assignments of an insertion keep a symmetric matrix with zero diagonal and
without negative entries in this shape when the edge has distinct `int` endpoints and a
positive weight. -/
theorem putEdge_symNonneg {m m' : List (List Double)} {e : Edge} (hsq : Graph.Square ⟨m⟩)
    (h : SymNonneg m) (hint : e.IsInt) (hne : e.u ≠ e.v) (hw : 0 < e.weight)
    (hput : putEdge m e = .ok m') :
    Graph.Square ⟨m'⟩ ∧ m'.length = m.length ∧ SymNonneg m' := by
  obtain ⟨hsq', hlen⟩ := putEdge_ok_square hsq hput
  -- a write that returns is inside the matrix
  have hbounds : toSizeT e.u < m.length ∧ toSizeT e.v < m.length := by
    unfold putEdge at hput
    cases h1 : writeCell m (toSizeT e.u) (toSizeT e.v) e.weight with
    | ok m1 =>
      obtain ⟨row, hrow, hj, -⟩ := writeCell_eq_ok.1 h1
      have hrl : row.length = m.length := square_row (g := ⟨m⟩) hsq hrow
      exact ⟨(List.getElem?_eq_some.1 hrow).1, by omega⟩
    | graphException => rw [h1] at hput; cases hput
    | allocFailure => rw [h1] at hput; cases hput
    | undefined => rw [h1] at hput; cases hput
    | outOfFuel => rw [h1] at hput; cases hput
  obtain ⟨m2, hput2, -, -, hread⟩ := putEdge_square (e := e) hsq hbounds.1 hbounds.2
  rw [hput] at hput2
  simp only [Result.ok.injEq] at hput2
  subst hput2
  have hij : toSizeT e.u ≠ toSizeT e.v := fun h' => hne (toSizeT_inj hint.2 hint.1 h')
  have hcell : ∀ i < m.length, ∀ j < m.length, cell m' i j =
      if (i = toSizeT e.u ∧ j = toSizeT e.v) ∨ (i = toSizeT e.v ∧ j = toSizeT e.u)
      then e.weight else cell m i j := by
    intro i hi j hj
    have h1 := readCell_cell hsq' (hlen ▸ hi) (hlen ▸ hj)
    rw [hread, readCell_cell hsq hi hj] at h1
    split at h1
    · rename_i hc
      rw [if_pos hc]
      simp only [Result.ok.injEq] at h1
      exact h1.symm
    · rename_i hc
      rw [if_neg hc]
      simp only [Result.ok.injEq] at h1
      exact h1.symm
  refine ⟨hsq', hlen, ?_⟩
  intro i hi j hj
  rw [hlen] at hi hj
  obtain ⟨hsym, hdiag, hnn⟩ := h i hi j hj
  rw [hcell i hi j hj, hcell j hj i hi, hcell i hi i hi]
  refine ⟨?_, ?_, ?_⟩
  · by_cases hc : (i = toSizeT e.u ∧ j = toSizeT e.v) ∨ (i = toSizeT e.v ∧ j = toSizeT e.u)
    · have hc' : (j = toSizeT e.u ∧ i = toSizeT e.v) ∨ (j = toSizeT e.v ∧ i = toSizeT e.u) := by
        rcases hc with ⟨h1, h2⟩ | ⟨h1, h2⟩
        · exact Or.inr ⟨h2, h1⟩
        · exact Or.inl ⟨h2, h1⟩
      rw [if_pos hc, if_pos hc']
    · have hc' : ¬ ((j = toSizeT e.u ∧ i = toSizeT e.v) ∨
          (j = toSizeT e.v ∧ i = toSizeT e.u)) := by
        rintro (⟨h1, h2⟩ | ⟨h1, h2⟩)
        · exact hc (Or.inr ⟨h2, h1⟩)
        · exact hc (Or.inl ⟨h2, h1⟩)
      rw [if_neg hc, if_neg hc']
      exact hsym
  · rw [if_neg]
    · exact hdiag
    · rintro (⟨h1, h2⟩ | ⟨h1, h2⟩)
      · exact hij (h1.symm.trans h2)
      · exact hij (h2.symm.trans h1)
  · split
    · exact double_le_of_lt hw
    · exact hnn

theorem fillEdges_symNonneg (es : List Edge) {m m' : List (List Double)}
    (hsq : Graph.Square ⟨m⟩) (h : SymNonneg m)
    (hval : ∀ e ∈ es, e.IsInt ∧ e.u ≠ e.v ∧ 0 < e.weight)
    (hfill : fillEdges m es = .ok m') : SymNonneg m' := by
  induction es generalizing m with
  | nil =>
    simp only [fillEdges, Result.ok.injEq] at hfill
    subst hfill
    exact h
  | cons e es ih =>
    unfold fillEdges at hfill
    obtain ⟨hint, hne, hw⟩ := hval e (List.mem_cons_self _ _)
    cases h1 : putEdge m e with
    | ok m1 =>
      rw [h1] at hfill
      obtain ⟨hsq1, -, hsym1⟩ := putEdge_symNonneg hsq h hint hne hw h1
      exact ih hsq1 hsym1 (fun x hx => hval x (List.mem_cons_of_mem _ hx)) hfill
    | graphException => rw [h1] at hfill; cases hfill
    | allocFailure => rw [h1] at hfill; cases hfill
    | undefined => rw [h1] at hfill; cases hfill
    | outOfFuel => rw [h1] at hfill; cases hfill

theorem AddEdge_symNonneg {g g' : Graph} {e : Edge} (hsq : g.Square)
    (h : SymNonneg g.graph) (hint : e.IsInt) (hw : 0 < e.weight)
    (hdone : g.AddEdge e = .done g') :
    g'.Square ∧ g'.graph.length = g.graph.length ∧ SymNonneg g'.graph := by
  unfold Graph.AddEdge at hdone
  split at hdone
  · cases hdone
  · rename_i hc
    have hne : e.u ≠ e.v := fun h' => hc (Or.inl h')
    cases h1 : putEdge g.graph e with
    | ok m =>
      rw [h1] at hdone
      simp only [Mutation.done.injEq] at hdone
      subst hdone
      exact putEdge_symNonneg hsq h hint hne hw h1
    | graphException => rw [h1] at hdone; cases hdone
    | allocFailure => rw [h1] at hdone; cases hdone
    | undefined => rw [h1] at hdone; cases hdone
    | outOfFuel => rw [h1] at hdone; cases hdone

theorem AddEdges_symNonneg (es : List Edge) {g g' : Graph} (hsq : g.Square)
    (h : SymNonneg g.graph) (hint : ∀ e ∈ es, e.IsInt ∧ 0 < e.weight)
    (hdone : g.AddEdges es = .done g') :
    g'.Square ∧ g'.graph.length = g.graph.length ∧ SymNonneg g'.graph := by
  induction es generalizing g with
  | nil =>
    simp only [Graph.AddEdges, Mutation.done.injEq] at hdone
    subst hdone
    exact ⟨hsq, rfl, h⟩
  | cons e es ih =>
    unfold Graph.AddEdges at hdone
    split at hdone
    · cases hdone
    · rename_i hc
      have hne : e.u ≠ e.v := fun h' => hc (Or.inl h')
      have hw : 0 < e.weight := (hint e (List.mem_cons_self _ _)).2
      cases h1 : putEdge g.graph e with
      | ok m =>
        rw [h1] at hdone
        obtain ⟨hsq1, hlen1, hsym1⟩ :=
          putEdge_symNonneg hsq h (hint e (List.mem_cons_self _ _)).1 hne hw h1
        obtain ⟨h2, h3, h4⟩ := ih (g := ⟨m⟩) hsq1 hsym1
          (fun x hx => hint x (List.mem_cons_of_mem _ hx)) hdone
        exact ⟨h2, h3.trans hlen1, h4⟩
      | graphException => rw [h1] at hdone; cases hdone
      | allocFailure => rw [h1] at hdone; cases hdone
      | undefined => rw [h1] at hdone; cases hdone
      | outOfFuel => rw [h1] at hdone; cases hdone

theorem allocMatrix_eq {mem : Memory} {n : Nat} {m : List (List Double)}
    (h : allocMatrix mem n = .ok m) :
    m = List.replicate n (List.replicate n 0) := by
  unfold allocMatrix at h
  split at h
  · simp only [Result.ok.injEq] at h
    exact h.symm
  · cases h

/-- Every graph built by one of the constructors and changed by insertions that return is
well-formed when the weights of all edges are positive. -/
theorem Graph.Produced.wf {g : Graph} (h : g.Produced) : g.WellFormed := by
  induction h with
  | @bySize mem n g hg =>
    obtain ⟨hsq, hs, hlen⟩ := Graph_n_inv hg
    refine wellFormed_of_cells hsq hs ?_
    unfold Graph.Graph_n at hg
    cases h1 : allocMatrix mem n with
    | ok m =>
      rw [h1] at hg
      simp only [Result.ok.injEq] at hg
      subst hg
      exact allocMatrix_eq h1 ▸ symNonneg_zeros n
    | graphException => rw [h1] at hg; cases hg
    | allocFailure => rw [h1] at hg; cases hg
    | undefined => rw [h1] at hg; cases hg
    | outOfFuel => rw [h1] at hg; cases hg
  | @byEdges mem es g hval hg =>
    obtain ⟨hsq, hs⟩ := Graph_edges_inv hg
    refine wellFormed_of_cells hsq hs ?_
    unfold Graph.Graph_edges at hg
    cases h0 : scanEdges es 0 with
    | none => rw [h0] at hg; cases hg
    | some maxVert =>
      rw [h0] at hg
      dsimp only at hg
      cases h1 : allocMatrix mem ((maxVert + 1) % 2 ^ 64) with
      | ok m =>
        rw [h1] at hg
        dsimp only at hg
        have hm := allocMatrix_eq h1
        cases h2 : fillEdges m es with
        | ok m' =>
          rw [h2] at hg
          simp only [Result.ok.injEq] at hg
          subst hg
          exact fillEdges_symNonneg es (allocMatrix_ok h1).1 (hm ▸ symNonneg_zeros _)
            hval h2
        | graphException => rw [h2] at hg; cases hg
        | allocFailure => rw [h2] at hg; cases hg
        | undefined => rw [h2] at hg; cases hg
        | outOfFuel => rw [h2] at hg; cases hg
      | graphException => rw [h1] at hg; cases hg
      | allocFailure => rw [h1] at hg; cases hg
      | undefined => rw [h1] at hg; cases hg
      | outOfFuel => rw [h1] at hg; cases hg
  | @addEdge g g' e _ hint hw hdone ih =>
    obtain ⟨hsq', hlen, hsym⟩ :=
      AddEdge_symNonneg ih.1 (symNonneg_of_wellFormed ih) hint hw hdone
    exact wellFormed_of_cells hsq' (by rw [hlen]; exact ih.2.1) hsym
  | @addEdges g g' es _ hint hdone ih =>
    obtain ⟨hsq', hlen, hsym⟩ :=
      AddEdges_symNonneg es ih.1 (symNonneg_of_wellFormed ih) hint hdone
    exact wellFormed_of_cells hsq' (by rw [hlen]; exact ih.2.1) hsym

/-- C15: `Graph(2)` followed by `AddEdge(Edge{1, 0, NaN})`: both endpoints are in range,
the test `weight <= 0` is false for NaN, the call returns and stores NaN in both cells.
The graph that results is not well-formed: the entry `weights[0][1]` is not `>= 0`. The
same holds for `AddEdges` and for the edge-list constructor with this edge. -/
theorem AddEdge_stores_nan :
    Graph.Graph_n smallMemory 2 = .ok (Graph.mk [[0, 0], [0, 0]]) ∧
    (Graph.mk [[0, 0], [0, 0]]).InRange 0 ∧ (Graph.mk [[0, 0], [0, 0]]).InRange 1 ∧
    ¬ (Double.nan ≤ 0) ∧
    (Graph.mk [[0, 0], [0, 0]]).AddEdge ⟨1, 0, .nan⟩ =
      .done (Graph.mk [[0, .nan], [.nan, 0]]) ∧
    (Graph.mk [[0, 0], [0, 0]]).AddEdges [⟨1, 0, .nan⟩] =
      .done (Graph.mk [[0, .nan], [.nan, 0]]) ∧
    Graph.Graph_edges smallMemory [⟨1, 0, .nan⟩] = .ok (Graph.mk [[0, .nan], [.nan, 0]]) ∧
    ¬ (0 ≤ (Graph.mk [[0, .nan], [.nan, 0]]).weights 0 1) ∧
    ¬ (Graph.mk [[0, .nan], [.nan, 0]]).WellFormed := by
  decide!

/-! ## Selection with ties -/

/-- C18: for every distance array and settled map of equal length in which some unsettled
vertex has a distance below the sentinel, `getNextVertex` returns an unsettled vertex of
minimum distance among the unsettled vertices (no unsettled vertex has a smaller distance,
and the returned distance is `<=` every unsettled distance that is a number), and the
lowest index among these. -/
theorem getNextVertex_lowest (distances : List Double) (vertMap : List Bool)
    (hlen : vertMap.length = distances.length)
    (hex : ∃ j, vertMap[j]? = some false ∧ distances.getD j 0 < DBL_MAX) :
    ∃ k, getNextVertex distances vertMap = .ok k ∧ vertMap[k]? = some false ∧
      (∀ j, vertMap[j]? = some false → ¬ distances.getD j 0 < distances.getD k 0) ∧
      (∀ j, vertMap[j]? = some false → distances.getD j 0 ≠ .nan →
        distances.getD k 0 ≤ distances.getD j 0) ∧
      (∀ j, vertMap[j]? = some false →
        (∀ i, vertMap[i]? = some false → distances.getD j 0 ≤ distances.getD i 0) → k ≤ j) ∧
      (∀ j, vertMap[j]? = some false → distances.getD j 0 ≤ distances.getD k 0 →
        k ≤ j) := by
  obtain ⟨k, hk, hkv, hkd, hmin, hfirst⟩ := getNextVertex_some distances vertMap hlen hex
  have hlow : ∀ j, vertMap[j]? = some false → distances.getD j 0 ≤ distances.getD k 0 →
      k ≤ j := by
    intro j hj hle
    by_contra hlt
    exact hfirst j (Nat.lt_of_not_le hlt) hj hle
  refine ⟨k, hk, hkv, hmin, ?_, ?_, hlow⟩
  · intro j hj hnan
    exact double_le_of_not_lt hnan (double_ne_nan_of_lt hkd).1 (hmin j hj)
  · intro j hj hjmin
    exact hlow j hj (hjmin k hkv)

/-- Witness for C18: the vertices `1` and `2` tie at the distance `1`, vertex `3` with the
distance `0` is settled; the call returns `1`. -/
theorem getNextVertex_lowest_witness :
    (∃ k, getNextVertex [3, 1, 1, 0] [false, false, false, true] = .ok k ∧
      [false, false, false, true][k]? = some false ∧
      (∀ j, [false, false, false, true][j]? = some false →
        ¬ [(3 : Double), 1, 1, 0].getD j 0 < [(3 : Double), 1, 1, 0].getD k 0) ∧
      (∀ j, [false, false, false, true][j]? = some false →
        [(3 : Double), 1, 1, 0].getD j 0 ≠ .nan →
        [(3 : Double), 1, 1, 0].getD k 0 ≤ [(3 : Double), 1, 1, 0].getD j 0) ∧
      (∀ j, [false, false, false, true][j]? = some false →
        (∀ i, [false, false, false, true][i]? = some false →
          [(3 : Double), 1, 1, 0].getD j 0 ≤ [(3 : Double), 1, 1, 0].getD i 0) → k ≤ j) ∧
      (∀ j, [false, false, false, true][j]? = some false →
        [(3 : Double), 1, 1, 0].getD j 0 ≤ [(3 : Double), 1, 1, 0].getD k 0 → k ≤ j)) ∧
    getNextVertex [3, 1, 1, 0] [false, false, false, true] = .ok 1 :=
  ⟨getNextVertex_lowest [3, 1, 1, 0] [false, false, false, true] rfl
      ⟨0, rfl, by decide!⟩,
    by decide!⟩

end ApcGraph
